import Mathlib

/-!
Verification development for the merlin personal knowledge-curation
assistant.  The Python source is shallowly embedded in Lean:

* strings manipulated character-by-character are `List Char`
  (ASCII-oriented models of `str.lower`, `str.strip`, `re.sub`);
* Python floats are modelled by exact rationals `ℚ`;
* Python dictionaries are modelled by insertion-ordered pair lists, with
  lookup returning the value of the *last* pair for a key (a later
  assignment to an existing key overwrites the value);
* `set` union is modelled on CPython's hash-table iteration: `hash` is
  the identity on small nonnegative integers and such an id occupies
  the slot equal to its value, so a set of small note ids iterates in
  ascending order; `setUnion` deduplicates and sorts ascending (exact
  for ids below the table size).  Python dicts, by contrast, are
  guaranteed to iterate in insertion order, which `dictKeys` keeps;
* the PostgreSQL store and the embedding service are modelled as an
  abstract `Store` structure: a deterministic full ranking per query
  vector (`ORDER BY embedding <-> q` before `LIMIT`), a deterministic
  filtered list for `ILIKE` text search, and the raw `notes` table.
-/

namespace Merlin

/-! ### Python character / string primitives -/

/-- ASCII model of Python `str.lower` applied to one character. -/
def pyLower (c : Char) : Char :=
  if 'A' ≤ c ∧ c ≤ 'Z' then Char.ofNat (c.toNat + 32) else c

/-- Model of the characters matched by Python `\s` (ASCII range). -/
def pyWs (c : Char) : Bool :=
  c = ' ' || c = '\t' || c = '\n' || c = '\x0d' || c = '\x0b' || c = '\x0c'

/-- Model of the characters matched by Python `\w` (ASCII range). -/
def pyWord (c : Char) : Bool :=
  c.isAlpha || c.isDigit || c = '_'

/-- Characters kept by the punctuation-stripping `re.sub` (everything
that is not a word character, whitespace, a slash or a hyphen is
removed). -/
def keptChar (c : Char) : Bool :=
  pyWord c || pyWs c || c = '/' || c = '-'

/-- Python strings handled character-by-character. -/
abbrev PyStr := List Char

/-- Python `str.strip()`: drop whitespace from both ends. -/
def pyStrip (s : PyStr) : PyStr :=
  ((s.dropWhile pyWs).reverse.dropWhile pyWs).reverse

/-- Python `str.strip('"')`: drop double quotes from both ends. -/
def stripQuotes (s : PyStr) : PyStr :=
  ((s.dropWhile (· = '"')).reverse.dropWhile (· = '"')).reverse

/-- Worker for `collapseWs`; the flag records whether the previous kept
character position was inside a whitespace run. -/
def collapseWsAux : Bool → PyStr → PyStr
  | _, [] => []
  | prevWs, c :: cs =>
    if pyWs c then
      if prevWs then collapseWsAux true cs
      else ' ' :: collapseWsAux true cs
    else c :: collapseWsAux false cs

/-- Model of `re.sub(r'\s+', ' ', s)`: each maximal whitespace run
becomes a single space. -/
def collapseWs (s : PyStr) : PyStr := collapseWsAux false s

/-- Python truthiness of a string: empty is falsy. -/
def strTruthy (s : PyStr) : Bool := !s.isEmpty

/-! ### Similarity scorer (`app/agents/tools/embedding.py`,
`compute_similarity`)

Vectors are lists of rationals.  The cosine value
`dot / (‖v1‖·‖v2‖)` is irrational in general, so the result is kept in
exact form as a pair `(num, denSq)` denoting `num / Real.sqrt denSq`;
the guard `norm == 0` is equivalent to the corresponding sum of squares
being `0` because `Real.sqrt x = 0 ↔ x = 0` for `x ≥ 0`.  The literal
`0.0` returned by the zero-norm branch is denoted by `(0, 1)`.
A division whose denominator is zero is the one runtime failure the
arithmetic could produce; it is modelled by `Except.error`. -/

/-- `np.pad(v, (0, n - len v), mode='constant')`. -/
def padTo (v : List ℚ) (n : Nat) : List ℚ :=
  v ++ List.replicate (n - v.length) 0

/-- `np.dot` of two equal-length vectors. -/
def dotp (a b : List ℚ) : ℚ :=
  (List.zipWith (· * ·) a b).sum

/-- Sum of squares: the square of `np.linalg.norm`. -/
def sumsq (v : List ℚ) : ℚ := dotp v v

/-- Shallow embedding of `compute_similarity`.  The `.ok` payload
`(num, denSq)` denotes the float `num / Real.sqrt denSq`. -/
def compute_similarity (embedding1 embedding2 : List ℚ) :
    Except String (ℚ × ℚ) :=
  let n := max embedding1.length embedding2.length
  let vec1 := padTo embedding1 n
  let vec2 := padTo embedding2 n
  let dot_product := dotp vec1 vec2
  let s1 := sumsq vec1
  let s2 := sumsq vec2
  if s1 = 0 ∨ s2 = 0 then .ok (0, 1)
  else if s1 * s2 = 0 then .error "division by zero"
  else .ok (dot_product, s1 * s2)

theorem sumsq_nonneg (v : List ℚ) : 0 ≤ sumsq v := by
  induction v with
  | nil => simp [sumsq, dotp]
  | cons x xs ih =>
    simp only [sumsq, dotp, List.zipWith_cons_cons, List.sum_cons] at *
    have : 0 ≤ x * x := mul_self_nonneg x
    linarith

theorem sumsq_append_zeros (xs : List ℚ) (m : Nat) :
    sumsq (xs ++ List.replicate m 0) = sumsq xs := by
  induction m with
  | zero => simp
  | succ k ihk =>
    have : xs ++ List.replicate (k + 1) 0
        = (xs ++ List.replicate k 0) ++ [0] := by
      simp [List.replicate_succ']
    rw [this]
    unfold sumsq dotp at *
    rw [List.zipWith_append (h := rfl), List.sum_append]
    simp only [List.zipWith_cons_cons, List.zipWith_nil, mul_zero,
      List.sum_cons, List.sum_nil, add_zero]
    exact ihk

theorem sumsq_padTo (v : List ℚ) (n : Nat) :
    sumsq (padTo v n) = sumsq v :=
  sumsq_append_zeros v _

/-- helper: the embedded scorer never reaches the division-failure
branch, because the zero-norm guard covers every zero denominator. -/
theorem compute_similarity_total (e1 e2 : List ℚ) :
    ∃ v, compute_similarity e1 e2 = .ok v := by
  unfold compute_similarity
  set n := max e1.length e2.length with hn
  by_cases h : sumsq (padTo e1 n) = 0 ∨ sumsq (padTo e2 n) = 0
  · exact ⟨(0, 1), by simp [h]⟩
  · push_neg at h
    refine ⟨(dotp (padTo e1 n) (padTo e2 n),
      sumsq (padTo e1 n) * sumsq (padTo e2 n)), ?_⟩
    have hne : ¬(sumsq (padTo e1 n) = 0 ∨ sumsq (padTo e2 n) = 0) := by
      push_neg; exact h
    have hmul : sumsq (padTo e1 n) * sumsq (padTo e2 n) ≠ 0 :=
      mul_ne_zero h.1 h.2
    simp [hne, hmul]

/-- C3: `compute_similarity` never raises: for every pair of input
vectors the result is an `.ok` value (no exception escapes, so every
would-be computation failure is avoided rather than thrown), and if
either vector's norm is zero (equivalently its sum of squares is zero)
the returned value is exactly the float `0.0`, denoted `(0, 1)`. -/
theorem similarity_never_raises_zero_norm_zero (e1 e2 : List ℚ) :
    (∃ v, compute_similarity e1 e2 = .ok v) ∧
    (sumsq e1 = 0 ∨ sumsq e2 = 0 →
      compute_similarity e1 e2 = .ok (0, 1)) := by
  refine ⟨compute_similarity_total e1 e2, fun h => ?_⟩
  unfold compute_similarity
  set n := max e1.length e2.length with hn
  have h' : sumsq (padTo e1 n) = 0 ∨ sumsq (padTo e2 n) = 0 := by
    rcases h with h | h
    · exact Or.inl (by rw [sumsq_padTo, h])
    · exact Or.inr (by rw [sumsq_padTo, h])
  simp [h']

/-- Witness for C3 at a concrete input: the zero vector `[0, 0]`
against `[1, 2]` scores exactly `0.0`. -/
theorem similarity_never_raises_zero_norm_zero_witness :
    compute_similarity [(0 : ℚ), 0] [1, 2] = .ok (0, 1) :=
  (similarity_never_raises_zero_norm_zero [(0 : ℚ), 0] [1, 2]).2
    (Or.inl (by norm_num [sumsq, dotp]))

/-! ### Tag normalizer (`app/agents/tools/tagging.py`, `normalize_tags`)

Tags are polymorphic in Python; the embedded input type distinguishes
strings from non-string values (numbers, nested containers) whose only
observable property inside `normalize_tags` is that they are not
strings.  `json.loads` is modelled by a parser recognising top-level
JSON arrays of unescaped string literals; every other input is treated
as a parse failure.  (Valid non-array JSON or escape sequences would be
treated differently by Python, but no such input reaches the parser in
the claims below, and both the source-side and specification-side
definitions share the same model.) -/

/-- A Python value occurring in a tag list: a string or anything else. -/
inductive TagVal where
  | vstr (s : PyStr)
  | vother
deriving DecidableEq, Repr

/-- The input representations accepted by `normalize_tags`. -/
inductive TagInput where
  | str (s : PyStr)
  | list (l : List TagVal)
deriving DecidableEq, Repr

/-- Wrap plain strings as tag values. -/
def vstrs (l : List PyStr) : List TagVal := l.map .vstr

/-- Result of the modelled `json.loads`: a parsed array or a failure. -/
inductive JsonRes where
  | err
  | arr (l : List TagVal)
deriving DecidableEq, Repr

/-- Read a JSON string literal after its opening quote; no escape
sequences are supported by the model. -/
def jsonStrAux : PyStr → PyStr → Option (PyStr × PyStr)
  | [], _ => none
  | c :: cs, acc => if c = '"' then some (acc.reverse, cs) else jsonStrAux cs (c :: acc)

/-- Drop leading whitespace. -/
def skipWs (s : PyStr) : PyStr := s.dropWhile pyWs

/-- Parse the elements of a JSON array of string literals; `fuel`
bounds the recursion by the input length. -/
def jsonElemsAux : Nat → PyStr → List TagVal → JsonRes
  | 0, _, _ => .err
  | n + 1, s, acc =>
    match skipWs s with
    | '"' :: rest =>
      match jsonStrAux rest [] with
      | none => .err
      | some (lit, rest') =>
        match skipWs rest' with
        | ',' :: more => jsonElemsAux n more (acc ++ [.vstr lit])
        | ']' :: tail => if skipWs tail = [] then .arr (acc ++ [.vstr lit]) else .err
        | _ => .err
    | _ => .err

/-- Model of `json.loads` restricted to arrays of string literals. -/
def jsonLoadsArr (s : PyStr) : JsonRes :=
  match skipWs s with
  | '[' :: rest =>
    match skipWs rest with
    | ']' :: tail => if skipWs tail = [] then .arr [] else .err
    | _ => jsonElemsAux (rest.length + 1) rest []
  | _ => .err

/-- One step of the quote-aware PostgreSQL-array scanner (the `for char
in content` loop of the repair branch): state is
`(tags so far, current tag, in_quotes)`. -/
def pgScanStep (st : List PyStr × PyStr × Bool) (c : Char) :
    List PyStr × PyStr × Bool :=
  let (tags, cur, inq) := st
  if c = '"' ∧ (cur = [] ∨ cur.getLast? ≠ some '\\') then
    (tags, cur ++ [c], !inq)
  else if c = ',' ∧ inq = false then
    (if strTruthy (pyStrip cur) then tags ++ [stripQuotes (pyStrip cur)] else tags,
      [], false)
  else (tags, cur ++ [c], inq)

/-- Quote-aware split of a brace-literal body (repair branch). -/
def pgParseBody (content : PyStr) : List PyStr :=
  let st := content.foldl pgScanStep ([], [], false)
  if strTruthy (pyStrip st.2.1) then st.1 ++ [stripQuotes (pyStrip st.2.1)]
  else st.1

/-- The per-tag cleaning pipeline: strip, lowercase, collapse
whitespace runs, strip punctuation. -/
def cleanTag (t : PyStr) : PyStr :=
  (collapseWs ((pyStrip t).map pyLower)).filter keptChar

/-- The final `for tag in tags` loop: keep strings whose strip is
truthy, clean them, and keep cleaned tags of length `> 1`. -/
def normPass (l : List TagVal) : List PyStr :=
  l.filterMap fun v =>
    match v with
    | .vstr t =>
      if strTruthy (pyStrip t) then
        let c := cleanTag t
        if strTruthy c ∧ c.length > 1 then some c else none
      else none
    | .vother => none

/-- The seen-set deduplication loop, preserving first occurrences (used
by the tag normalizer and, at `Nat`, by the modelled `set` union). -/
def dedupAux {α : Type} [DecidableEq α] : List α → List α → List α
  | _, [] => []
  | seen, x :: xs =>
    if seen.contains x then dedupAux seen xs
    else x :: dedupAux (x :: seen) xs

/-- Remove duplicates while preserving order (`seen` starts empty). -/
def pyDedup {α : Type} [DecidableEq α] (l : List α) : List α := dedupAux [] l

/-- Cleaning loop followed by deduplication: the tail every branch of
`normalize_tags` converges on. -/
def finalize (l : List TagVal) : List PyStr := pyDedup (normPass l)

/-- The exploded-character-list detection of the source: length `> 10`,
first element one of the one-character strings `"\x7b"`/`"["` and last
element one of `"\x7d"`/`"]"` (matching is not required). -/
def detectExploded (l : List TagVal) : Bool :=
  l.length > 10 &&
    (l.head? = some (.vstr ['\x7b']) || l.head? = some (.vstr ['['])) &&
    (l.getLast? = some (.vstr ['\x7d']) || l.getLast? = some (.vstr [']']))

/-- Return the strings of a tag-value list, or `none` if any element is
not a string (in which case `''.join` raises `TypeError`). -/
def allStrs : List TagVal → Option (List PyStr)
  | [] => some []
  | .vstr s :: rest => (allStrs rest).map (s :: ·)
  | .vother :: _ => none

/-- The repair of a detected exploded character list: rejoin, try JSON,
then the quote-aware brace-literal parse; a `TypeError` from the join
(non-string element) is swallowed by the outer `except`, keeping the
original list. -/
def repairList (l : List TagVal) : List TagVal :=
  match allStrs l with
  | none => l
  | some strs =>
    let original := strs.flatten
    match jsonLoadsArr original with
    | .arr parsed => parsed
    | .err =>
      if original.head? = some '\x7b' ∧ original.getLast? = some '\x7d' then
        vstrs (pgParseBody (original.drop 1).dropLast)
      else []

/-- Shallow embedding of `normalize_tags`. -/
def normalize_tags : TagInput → List PyStr
  | .str s =>
    if s = [] then []
    else
      finalize <|
        if s.contains ',' then
          vstrs ((s.splitOn ',').map pyStrip)
        else if s.head? = some '[' ∧ s.getLast? = some ']' then
          match jsonLoadsArr s with
          | .arr l => l
          | .err => []
        else if s.head? = some '\x7b' ∧ s.getLast? = some '\x7d' then
          vstrs ((((s.drop 1).dropLast).splitOn ',').map
            fun t => stripQuotes (pyStrip t))
        else [.vstr s]
  | .list l =>
    if l = [] then []
    else finalize (if detectExploded l then repairList l else l)

/-- Specification-side repair (claim C4's words): rejoin the characters
into one string and re-parse it, trying JSON decoding first, then
falling back to brace-literal parsing that respects quoted commas. -/
def specRepair (s : PyStr) : List TagVal :=
  match jsonLoadsArr s with
  | .arr parsed => parsed
  | .err =>
    if s.head? = some '\x7b' ∧ s.getLast? = some '\x7d' then
      vstrs (pgParseBody (s.drop 1).dropLast)
    else []

/-- Specification-side detection exactly as claim C4 states it: length
`> 10`, first element an opening bracket/brace and last element the
*matching* close. -/
def specDetectMatching (l : List PyStr) : Prop :=
  10 < l.length ∧
    ((l.head? = some ['\x7b'] ∧ l.getLast? = some ['\x7d']) ∨
     (l.head? = some ['['] ∧ l.getLast? = some [']']))

/-- Amended detection: the closing element may be either `"\x7d"` or
`"]"`; it need not match the opening element. -/
def specDetectAnyClose (l : List PyStr) : Prop :=
  10 < l.length ∧
    (l.head? = some ['\x7b'] ∨ l.head? = some ['[']) ∧
    (l.getLast? = some ['\x7d'] ∨ l.getLast? = some [']'])

instance (l : List PyStr) : Decidable (specDetectMatching l) := by
  unfold specDetectMatching; infer_instance

instance (l : List PyStr) : Decidable (specDetectAnyClose l) := by
  unfold specDetectAnyClose; infer_instance

/-- The behaviour claim C4 ascribes to `normalize_tags` on a list of
strings, parameterised by the detection predicate. -/
def specNormalizeList (detect : List PyStr → Prop) [DecidablePred detect]
    (l : List PyStr) : List PyStr :=
  if detect l then finalize (specRepair l.flatten) else finalize (vstrs l)

/-- An 11-element list opening with `"\x7b"` but closing with the
non-matching `"]"`. -/
def mismatchList : List PyStr :=
  ['\x7b'] :: (["aa", "bb", "cc", "dd", "ee", "ff", "gg", "hh", "ii"].map
    String.toList) ++ [[']']]

/-- The character list of the string `'\x7b"a","b"\x7d'`. -/
def abBraceChars : PyStr :=
  ['\x7b', '"', 'a', '"', ',', '"', 'b', '"', '\x7d']

/-- C4 counterexample: with a non-matching close (`"\x7b" … "]"`, 11
elements) the source still detects and repairs (yielding `[]`), while
the claim's matching-close detection would normalize element-wise
(yielding `["aa", …]`); so `normalize_tags` does not implement the
claimed detection condition. -/
theorem tag_repair_detection_counterexample :
    normalize_tags (.list (vstrs mismatchList)) ≠
      specNormalizeList specDetectMatching mismatchList := by
  decide

theorem allStrs_vstrs (l : List PyStr) : allStrs (vstrs l) = some l := by
  induction l with
  | nil => rfl
  | cons x xs ih => simp [vstrs, allStrs] at *; simp [ih]

theorem finalize_nil : finalize [] = [] := rfl

/-- C4 (amended: the detection accepts any closing bracket/brace, not
only the matching one): `normalize_tags` on a list of strings detects a
degenerate exploded-character list exactly when the list has length
`> 10`, its first element is an opening bracket/brace and its last is a
closing bracket/brace, and repairs it by rejoining the characters and
re-parsing (JSON first, then brace-literal parsing respecting quoted
commas); in particular, on the character list of `'\x7b"a","b"\x7d'` it
returns the same output as on the string itself. -/
theorem tag_repair_detection_amended :
    (∀ l : List PyStr,
      normalize_tags (.list (vstrs l)) =
        specNormalizeList specDetectAnyClose l) ∧
    normalize_tags (.list (vstrs (abBraceChars.map fun c => [c]))) =
      normalize_tags (.str abBraceChars) := by
  constructor
  · intro l
    simp only [normalize_tags, specNormalizeList]
    rcases eq_or_ne l [] with rfl | hne
    · simp [specDetectAnyClose, vstrs, finalize_nil]
    · have hv : vstrs l ≠ [] := by
        simpa [vstrs] using hne
      rw [if_neg hv]
      have hdet : detectExploded (vstrs l) = true ↔ specDetectAnyClose l := by
        unfold detectExploded specDetectAnyClose
        simp only [Bool.and_eq_true, Bool.or_eq_true, decide_eq_true_eq,
          vstrs, List.length_map, List.head?_map, List.getLast?_map]
        constructor
        · rintro ⟨⟨hlen, hh⟩, hl⟩
          refine ⟨by simpa using hlen, ?_, ?_⟩
          · rcases hh with h | h <;>
              [left; right] <;>
              · cases hh' : l.head? <;> simp [hh'] at h ⊢ <;> simp_all
          · rcases hl with h | h <;>
              [left; right] <;>
              · cases hl' : l.getLast? <;> simp [hl'] at h ⊢ <;> simp_all
        · rintro ⟨hlen, hh, hl⟩
          refine ⟨⟨by simpa using hlen, ?_⟩, ?_⟩
          · rcases hh with h | h <;> [left; right] <;> simp [h]
          · rcases hl with h | h <;> [left; right] <;> simp [h]
      by_cases hd : specDetectAnyClose l
      · rw [if_pos hd]
        have : detectExploded (vstrs l) = true := hdet.mpr hd
        rw [this]
        simp only [if_true]
        unfold repairList specRepair
        rw [allStrs_vstrs]
      · rw [if_neg hd]
        have : detectExploded (vstrs l) = false := by
          rcases Bool.eq_false_or_eq_true (detectExploded (vstrs l)) with h | h
          · exact absurd (hdet.mp h) hd
          · exact h
        rw [this]
        simp
  · decide

/-! Idempotence infrastructure for the tag normalizer (claim C5). -/

theorem toNat_ofNat_valid {n : Nat} (h : n.isValidChar) :
    (Char.ofNat n).toNat = n := by
  unfold Char.ofNat
  rw [dif_pos h]
  simp [Char.ofNatAux, Char.toNat, UInt32.toNat, BitVec.toNat_ofNatLt]

theorem pyLower_idem (c : Char) : pyLower (pyLower c) = pyLower c := by
  unfold pyLower
  by_cases h : 'A' ≤ c ∧ c ≤ 'Z'
  · rw [if_pos h]
    have hcz : c.toNat ≤ 'Z'.toNat := h.2
    have hZ : 'Z'.toNat = 90 := by decide
    have hvalid : (c.toNat + 32).isValidChar := by
      left; omega
    have hofNat : (Char.ofNat (c.toNat + 32)).toNat = c.toNat + 32 :=
      toNat_ofNat_valid hvalid
    have hlow : ¬('A' ≤ Char.ofNat (c.toNat + 32) ∧ Char.ofNat (c.toNat + 32) ≤ 'Z') := by
      rintro ⟨-, h2⟩
      have h2' : (Char.ofNat (c.toNat + 32)).toNat ≤ 'Z'.toNat := h2
      rw [hofNat] at h2'
      have hca : 'A'.toNat ≤ c.toNat := h.1
      have hAv : 'A'.toNat = 65 := by decide
      omega
    rw [if_neg hlow]
  · rw [if_neg h, if_neg h]

theorem pyLower_space : pyLower ' ' = ' ' := by decide

theorem keptChar_space : keptChar ' ' = true := by decide

theorem pyWs_space : pyWs ' ' = true := by decide

/-- The head of `dropWhile p l` does not satisfy `p`. -/
theorem head_dropWhile_not (p : Char → Bool) :
    ∀ (l : PyStr) (c : Char), (l.dropWhile p).head? = some c → p c = false := by
  intro l
  induction l with
  | nil => intro c h; simp at h
  | cons x xs ih =>
    intro c h
    by_cases hx : p x
    · rw [List.dropWhile_cons_of_pos hx] at h
      exact ih c h
    · rw [List.dropWhile_cons_of_neg hx] at h
      simp only [List.head?_cons, Option.some.injEq] at h
      subst h
      simpa using hx

/-- `pyStrip` is `rdropWhile pyWs` after `dropWhile pyWs`. -/
theorem pyStrip_eq_rdropWhile (s : PyStr) :
    pyStrip s = List.rdropWhile pyWs (s.dropWhile pyWs) := rfl

/-- The head of a stripped string is not whitespace. -/
theorem pyStrip_head_not_ws (s : PyStr) (c : Char) :
    (pyStrip s).head? = some c → pyWs c = false := by
  intro h
  rw [pyStrip_eq_rdropWhile] at h
  have hpre := List.rdropWhile_prefix pyWs (l := s.dropWhile pyWs)
  have hhd : (s.dropWhile pyWs).head? = some c := by
    rcases hpre with ⟨t, ht⟩
    rw [← ht]
    cases hcase : List.rdropWhile pyWs (s.dropWhile pyWs) with
    | nil => rw [hcase] at h; simp at h
    | cons y ys =>
      rw [hcase] at h
      simp only [List.head?_cons, Option.some.injEq] at h
      subst h
      simp
  exact head_dropWhile_not pyWs s c hhd

/-- The last character of a stripped string is not whitespace. -/
theorem pyStrip_getLast_not_ws (s : PyStr) (c : Char) :
    (pyStrip s).getLast? = some c → pyWs c = false := by
  intro h
  unfold pyStrip at h
  rw [List.getLast?_reverse] at h
  exact head_dropWhile_not pyWs (s.dropWhile pyWs).reverse c h

/-- A string whose first and last characters are not whitespace is
fixed by `pyStrip`. -/
theorem pyStrip_eq_self (s : PyStr)
    (h1 : ∀ c, s.head? = some c → pyWs c = false)
    (h2 : ∀ c, s.getLast? = some c → pyWs c = false) :
    pyStrip s = s := by
  have hfront : s.dropWhile pyWs = s := by
    cases s with
    | nil => rfl
    | cons x xs =>
      have := h1 x (by simp)
      rw [List.dropWhile_cons_of_neg (by simp [this])]
  rw [pyStrip_eq_rdropWhile, hfront, List.rdropWhile_eq_self_iff]
  intro hl
  have := h2 (s.getLast hl) (List.getLast?_eq_getLast s hl ▸ rfl)
  simp [this]

/-- Every character emitted by the collapser is an input character or a
space. -/
theorem collapse_chars : ∀ (b : Bool) (s : PyStr) (c : Char),
    c ∈ collapseWsAux b s → c ∈ s ∨ c = ' ' := by
  intro b s
  induction s generalizing b with
  | nil => intro c h; simp [collapseWsAux] at h
  | cons x xs ih =>
    intro c h
    unfold collapseWsAux at h
    by_cases hx : pyWs x
    · rw [if_pos hx] at h
      by_cases hb : b
      · subst hb
        rw [if_pos rfl] at h
        rcases ih true c h with h' | h'
        · exact Or.inl (List.mem_cons_of_mem _ h')
        · exact Or.inr h'
      · simp only [hb, if_false] at h
        rcases List.mem_cons.mp h with rfl | h'
        · exact Or.inr rfl
        · rcases ih true c h' with h'' | h''
          · exact Or.inl (List.mem_cons_of_mem _ h'')
          · exact Or.inr h''
    · rw [if_neg hx] at h
      rcases List.mem_cons.mp h with rfl | h'
      · exact Or.inl (List.mem_cons_self _ _)
      · rcases ih false c h' with h'' | h''
        · exact Or.inl (List.mem_cons_of_mem _ h'')
        · exact Or.inr h''

/-- Every whitespace character in the collapser's output is a space. -/
theorem collapse_ws_space : ∀ (b : Bool) (s : PyStr) (c : Char),
    c ∈ collapseWsAux b s → pyWs c = true → c = ' ' := by
  intro b s
  induction s generalizing b with
  | nil => intro c h; simp [collapseWsAux] at h
  | cons x xs ih =>
    intro c h hws
    unfold collapseWsAux at h
    by_cases hx : pyWs x
    · rw [if_pos hx] at h
      by_cases hb : b
      · subst hb; rw [if_pos rfl] at h; exact ih true c h hws
      · simp only [hb, if_false] at h
        rcases List.mem_cons.mp h with rfl | h'
        · rfl
        · exact ih true c h' hws
    · rw [if_neg hx] at h
      rcases List.mem_cons.mp h with rfl | h'
      · exact absurd hws (by simpa using hx)
      · exact ih false c h' hws

/-- No two adjacent whitespace characters survive collapsing, and with
the flag set the output cannot start with whitespace. -/
theorem collapse_chain : ∀ (s : PyStr),
    (∀ b, (collapseWsAux b s).Chain'
      (fun a c => ¬(pyWs a = true ∧ pyWs c = true))) ∧
    (∀ c, (collapseWsAux true s).head? = some c → pyWs c = false) := by
  intro s
  induction s with
  | nil => exact ⟨fun b => by simp [collapseWsAux], fun c h => by simp [collapseWsAux] at h⟩
  | cons x xs ih =>
    rcases ih with ⟨ihc, ihh⟩
    constructor
    · intro b
      unfold collapseWsAux
      by_cases hx : pyWs x
      · rw [if_pos hx]
        by_cases hb : b
        · subst hb; rw [if_pos rfl]; exact ihc true
        · simp only [hb, if_false]
          refine List.chain'_cons'.mpr ⟨?_, ihc true⟩
          intro y hy
          intro hcontra
          have := ihh y hy
          simp [this] at hcontra
      · rw [if_neg hx]
        refine List.chain'_cons'.mpr ⟨?_, ihc false⟩
        intro y hy hcontra
        exact absurd hcontra.1 (by simpa using hx)
    · intro c h
      unfold collapseWsAux at h
      by_cases hx : pyWs x
      · rw [if_pos hx, if_pos rfl] at h
        exact ihh c h
      · rw [if_neg hx] at h
        simp only [List.head?_cons, Option.some.injEq] at h
        subst h
        simpa using hx

/-- On input already in collapsed form (whitespace characters are all
spaces and never adjacent), the collapser is the identity. -/
theorem collapse_fix : ∀ (l : PyStr),
    (∀ c ∈ l, pyWs c = true → c = ' ') →
    l.Chain' (fun a c => ¬(pyWs a = true ∧ pyWs c = true)) →
    collapseWsAux false l = l := by
  intro l
  induction l with
  | nil => intro _ _; rfl
  | cons x xs ih =>
    intro hsp hch
    unfold collapseWsAux
    by_cases hx : pyWs x
    · rw [if_pos hx]
      simp only [Bool.false_eq_true, if_false]
      have hxsp : x = ' ' := hsp x (List.mem_cons_self _ _) hx
      have htail : collapseWsAux true xs = xs := by
        cases xs with
        | nil => rfl
        | cons y ys =>
          have hy : ¬ pyWs y = true := by
            have := (List.chain'_cons.mp hch).1
            intro hyws
            exact this ⟨hx, hyws⟩
          unfold collapseWsAux
          rw [if_neg hy]
          have := ih (fun c hc => hsp c (List.mem_cons_of_mem _ hc))
            (List.chain'_cons.mp hch).2
          unfold collapseWsAux at this
          rw [if_neg hy] at this
          exact this
      rw [htail, hxsp]
    · rw [if_neg hx]
      rw [ih (fun c hc => hsp c (List.mem_cons_of_mem _ hc))
        (List.Chain'.tail hch)]

theorem getLast?_cons_ne {α : Type} (a : α) (l : List α) (h : l ≠ []) :
    (a :: l).getLast? = l.getLast? := by
  cases l with
  | nil => exact absurd rfl h
  | cons y ys => rw [List.getLast?_cons_cons]

/-- Collapsing preserves a non-whitespace final character. -/
theorem collapse_getLast : ∀ (s : PyStr) (b : Bool) (c : Char),
    s.getLast? = some c → pyWs c = false →
    (collapseWsAux b s).getLast? = some c := by
  intro s
  induction s with
  | nil => intro b c h; simp at h
  | cons x xs ih =>
    intro b c h hc
    by_cases hnil : xs = []
    · subst hnil
      simp only [List.getLast?_singleton, Option.some.injEq] at h
      subst h
      unfold collapseWsAux
      rw [if_neg (by simp [hc])]
      rfl
    · have hlast : xs.getLast? = some c := by
        rw [getLast?_cons_ne x xs hnil] at h
        exact h
      have htail : ∀ b', (collapseWsAux b' xs).getLast? = some c :=
        fun b' => ih b' c hlast hc
      have hne : ∀ b', collapseWsAux b' xs ≠ [] := by
        intro b' hn
        have := htail b'
        rw [hn] at this
        simp at this
      unfold collapseWsAux
      by_cases hx : pyWs x
      · rw [if_pos hx]
        by_cases hb : b
        · subst hb
          rw [if_pos rfl]
          exact htail true
        · simp only [hb, Bool.false_eq_true, if_false]
          rw [getLast?_cons_ne _ _ (hne true)]
          exact htail true
      · rw [if_neg hx]
        rw [getLast?_cons_ne _ _ (hne false)]
        exact htail false

/-- Stripping only keeps characters of the input. -/
theorem pyStrip_subset (s : PyStr) : ∀ c ∈ pyStrip s, c ∈ s := by
  intro c hc
  rw [pyStrip_eq_rdropWhile] at hc
  have h1 := (List.rdropWhile_prefix pyWs (l := s.dropWhile pyWs)).sublist
  have h2 := List.dropWhile_sublist (p := pyWs) (l := s)
  exact h2.mem (h1.mem hc)

/-- Every character of a clean tag survives the punctuation filter and
is fixed by lowercasing. -/
theorem cleanTag_chars (t : PyStr) :
    ∀ c ∈ cleanTag t, keptChar c = true ∧ pyLower c = c := by
  intro c hc
  unfold cleanTag at hc
  have hkept : keptChar c = true := (List.mem_filter.mp hc).2
  refine ⟨hkept, ?_⟩
  have hmem := (List.mem_filter.mp hc).1
  rcases collapse_chars false _ c hmem with hm | hsp
  · rcases List.mem_map.mp hm with ⟨d, _, rfl⟩
    exact pyLower_idem d
  · rw [hsp]; exact pyLower_space

/-- Collapsing is idempotent. -/
theorem collapse_collapse (s : PyStr) :
    collapseWs (collapseWs s) = collapseWs s := by
  unfold collapseWs
  exact collapse_fix _ (collapse_ws_space false s) ((collapse_chain s).1 false)

/-- Stripping is the identity on the collapse of a stripped string. -/
theorem pyStrip_collapse_pyStrip (s : PyStr) :
    pyStrip (collapseWs (pyStrip s)) = collapseWs (pyStrip s) := by
  cases hs : pyStrip s with
  | nil => simp [collapseWs, collapseWsAux, pyStrip]
  | cons x xs =>
    have hx : pyWs x = false := by
      apply pyStrip_head_not_ws s
      rw [hs]; rfl
    apply pyStrip_eq_self
    · intro c hc
      unfold collapseWs collapseWsAux at hc
      rw [if_neg (by simp [hx])] at hc
      simp only [List.head?_cons, Option.some.injEq] at hc
      subst hc
      exact hx
    · intro c hc
      have hlast : (x :: xs).getLast? = some ((x :: xs).getLast (by simp)) :=
        List.getLast?_eq_getLast _ _
      set d := (x :: xs).getLast (by simp) with hd
      have hdws : pyWs d = false := by
        apply pyStrip_getLast_not_ws s
        rw [hs]; exact hlast
      have hcl := collapse_getLast (x :: xs) false d hlast hdws
      unfold collapseWs at hc
      rw [hcl] at hc
      injection hc with hdc
      rw [← hdc]
      exact hdws

/-- Mapping a function that fixes every element is the identity. -/
theorem map_fix {α : Type} (f : α → α) :
    ∀ (l : List α), (∀ c ∈ l, f c = c) → l.map f = l := by
  intro l
  induction l with
  | nil => intro _; rfl
  | cons x xs ih =>
    intro h
    simp only [List.map_cons]
    rw [h x (List.mem_cons_self _ _), ih (fun c hc => h c (List.mem_cons_of_mem _ hc))]

/-- On a string whose characters are all kept and lowercase-fixed,
`cleanTag` is collapse-after-strip. -/
theorem cleanTag_of_canon (t : PyStr)
    (h : ∀ c ∈ t, keptChar c = true ∧ pyLower c = c) :
    cleanTag t = collapseWs (pyStrip t) := by
  unfold cleanTag
  have hmap : (pyStrip t).map pyLower = pyStrip t :=
    map_fix pyLower (pyStrip t) fun c hc => (h c (pyStrip_subset t c hc)).2
  rw [hmap]
  apply List.filter_eq_self.mpr
  intro c hc
  rcases collapse_chars false _ c hc with hm | hsp
  · exact (h c (pyStrip_subset t c hm)).1
  · rw [hsp]; exact keptChar_space

/-- A second application of `cleanTag` to an already canonical-charset
string is absorbed by a third. -/
theorem cleanTag_fix (t : PyStr)
    (h : ∀ c ∈ t, keptChar c = true ∧ pyLower c = c) :
    cleanTag (cleanTag t) = cleanTag t := by
  rw [cleanTag_of_canon t h]
  set u := collapseWs (pyStrip t) with hu
  have hchars : ∀ c ∈ u, keptChar c = true ∧ pyLower c = c := by
    intro c hc
    rw [hu] at hc
    rcases collapse_chars false _ c hc with hm | hsp
    · exact h c (pyStrip_subset t c hm)
    · rw [hsp]; exact ⟨keptChar_space, pyLower_space⟩
  rw [cleanTag_of_canon u hchars, hu, pyStrip_collapse_pyStrip,
    collapse_collapse]

/-- `cleanTag` stabilises after two applications. -/
theorem cleanTag_third (t : PyStr) :
    cleanTag (cleanTag (cleanTag t)) = cleanTag (cleanTag t) :=
  cleanTag_fix (cleanTag t) (cleanTag_chars t)

/-- Members of the cleaning pass are cleaned tags that passed the
truthiness and length checks. -/
theorem normPass_mem (l : List TagVal) (t : PyStr) (h : t ∈ normPass l) :
    (∃ t0, t = cleanTag t0) ∧ strTruthy t = true ∧ 1 < t.length := by
  unfold normPass at h
  rcases List.mem_filterMap.mp h with ⟨v, _, hv⟩
  cases v with
  | vother => simp at hv
  | vstr s =>
    simp only at hv
    by_cases h1 : strTruthy (pyStrip s)
    · rw [if_pos h1] at hv
      by_cases h2 : strTruthy (cleanTag s) = true ∧ (cleanTag s).length > 1
      · rw [if_pos h2] at hv
        injection hv with hv
        subst hv
        exact ⟨⟨s, rfl⟩, h2.1, h2.2⟩
      · rw [if_neg h2] at hv
        simp at hv
    · rw [if_neg h1] at hv
      simp at hv

theorem dedupAux_subset {α : Type} [DecidableEq α] (l seen : List α) :
    ∀ x ∈ dedupAux seen l, x ∈ l := by
  induction l generalizing seen with
  | nil => intro x hx; simp [dedupAux] at hx
  | cons y ys ih =>
    intro x hx
    unfold dedupAux at hx
    by_cases hy : seen.contains y
    · rw [if_pos hy] at hx
      exact List.mem_cons_of_mem _ (ih seen x hx)
    · rw [if_neg hy] at hx
      rcases List.mem_cons.mp hx with rfl | hx'
      · exact List.mem_cons_self _ _
      · exact List.mem_cons_of_mem _ (ih (y :: seen) x hx')

theorem dedupAux_not_seen {α : Type} [DecidableEq α] (l : List α) :
    ∀ (seen : List α) (x : α), x ∈ dedupAux seen l → seen.contains x = false := by
  induction l with
  | nil => intro seen x hx; simp [dedupAux] at hx
  | cons y ys ih =>
    intro seen x hx
    unfold dedupAux at hx
    by_cases hy : seen.contains y
    · rw [if_pos hy] at hx
      exact ih seen x hx
    · rw [if_neg hy] at hx
      rcases List.mem_cons.mp hx with rfl | hx'
      · simpa using hy
      · have h' := ih (y :: seen) x hx'
        simp only [List.contains_cons, Bool.or_eq_false_iff] at h'
        exact h'.2

theorem dedupAux_nodup {α : Type} [DecidableEq α] (l : List α) :
    ∀ seen, (dedupAux seen l).Nodup := by
  induction l with
  | nil => intro seen; simp [dedupAux]
  | cons y ys ih =>
    intro seen
    unfold dedupAux
    by_cases hy : seen.contains y
    · rw [if_pos hy]; exact ih seen
    · rw [if_neg hy]
      refine List.nodup_cons.mpr ⟨?_, ih (y :: seen)⟩
      intro hmem
      have := dedupAux_not_seen ys (y :: seen) y hmem
      simp at this

theorem pyDedup_nodup {α : Type} [DecidableEq α] (l : List α) : (pyDedup l).Nodup :=
  dedupAux_nodup l []

theorem pyDedup_subset {α : Type} [DecidableEq α] (l : List α) : ∀ x ∈ pyDedup l, x ∈ l :=
  dedupAux_subset l []

theorem dedupAux_of_nodup {α : Type} [DecidableEq α] (l : List α) :
    ∀ seen, l.Nodup → (∀ x ∈ l, seen.contains x = false) →
      dedupAux seen l = l := by
  induction l with
  | nil => intro seen _ _; rfl
  | cons y ys ih =>
    intro seen hnd hs
    unfold dedupAux
    have hy : seen.contains y = false := hs y (List.mem_cons_self _ _)
    rw [if_neg (by rw [hy]; simp)]
    congr 1
    apply ih (y :: seen) (List.nodup_cons.mp hnd).2
    intro x hx
    simp only [List.contains_cons, Bool.or_eq_false_iff]
    constructor
    · have := (List.nodup_cons.mp hnd).1
      simp only [beq_eq_false_iff_ne, ne_eq]
      intro hxy
      exact this (hxy ▸ hx)
    · exact hs x (List.mem_cons_of_mem _ hx)

theorem pyDedup_of_nodup {α : Type} [DecidableEq α] (l : List α) (h : l.Nodup) : pyDedup l = l :=
  dedupAux_of_nodup l [] h (by intro x _; rfl)

/-- The cleaning pass is the identity on lists of canonical tokens. -/
theorem normPass_vstrs_fix (u : List PyStr)
    (h : ∀ t ∈ u, cleanTag t = t ∧ pyStrip t = t ∧ strTruthy t = true ∧
      1 < t.length) :
    normPass (vstrs u) = u := by
  induction u with
  | nil => rfl
  | cons t ts ih =>
    rcases h t (List.mem_cons_self _ _) with ⟨hclean, hstrip, htr, hlen⟩
    unfold vstrs at *
    simp only [List.map_cons]
    unfold normPass at *
    rw [List.filterMap_cons_some]
    · rw [ih fun t' ht' => h t' (List.mem_cons_of_mem _ ht')]
    · simp only
      rw [hstrip, if_pos htr]
      simp only [hclean]
      rw [if_pos ⟨htr, hlen⟩]

/-- Tokens produced by a second normalization pass are fully canonical:
fixed by `cleanTag` and by `pyStrip`. -/
theorem second_pass_canon (L : List TagVal) (t : PyStr)
    (h : t ∈ finalize (vstrs (finalize L))) :
    cleanTag t = t ∧ pyStrip t = t ∧ strTruthy t = true ∧ 1 < t.length := by
  have h2 : t ∈ normPass (vstrs (finalize L)) := pyDedup_subset _ t h
  rcases normPass_mem _ t h2 with ⟨⟨t1, rfl⟩, htr, hlen⟩
  -- recover a witness: the filterMap structure means t1 was an element
  -- of `finalize L`, itself a cleaned tag with canonical characters
  unfold normPass at h2
  rcases List.mem_filterMap.mp h2 with ⟨v, hv, hveq⟩
  cases v with
  | vother => simp at hveq
  | vstr s =>
    -- `s` is a member of `finalize L`, hence `s = cleanTag s0`
    have hsfin : s ∈ finalize L := by simpa [vstrs] using hv
    have hs2 : s ∈ normPass L := pyDedup_subset _ s hsfin
    rcases normPass_mem L s hs2 with ⟨⟨s0, rfl⟩, _, _⟩
    -- extract the value equation from the filterMap member
    simp only at hveq
    by_cases hb1 : strTruthy (pyStrip (cleanTag s0))
    · rw [if_pos hb1] at hveq
      by_cases hb2 : strTruthy (cleanTag (cleanTag s0)) = true ∧
          (cleanTag (cleanTag s0)).length > 1
      · rw [if_pos hb2] at hveq
        injection hveq with hveq
        have hcanon := cleanTag_chars s0
        have hfix : cleanTag (cleanTag (cleanTag s0)) = cleanTag (cleanTag s0) :=
          cleanTag_third s0
        have hstrip : pyStrip (cleanTag (cleanTag s0)) = cleanTag (cleanTag s0) := by
          rw [cleanTag_of_canon (cleanTag s0) (cleanTag_chars s0)]
          exact pyStrip_collapse_pyStrip (cleanTag s0)
        rw [← hveq]
        exact ⟨hfix, hstrip, hveq ▸ htr, hveq ▸ hlen⟩
      · rw [if_neg hb2] at hveq
        simp at hveq
    · rw [if_neg hb1] at hveq
      simp at hveq

/-- A token of any cleaning pass has length at least two, so it cannot
be a single bracket character; hence re-feeding normalization output
never triggers the exploded-character repair. -/
theorem detect_vstrs_finalize_false (L : List TagVal) :
    detectExploded (vstrs (finalize L)) = false := by
  unfold detectExploded
  cases hu : finalize L with
  | nil => rfl
  | cons t ts =>
    have hlen : 1 < t.length := by
      have : t ∈ finalize L := by rw [hu]; exact List.mem_cons_self _ _
      exact (normPass_mem L t (pyDedup_subset _ t this)).2.2
    have hhd : (vstrs (t :: ts)).head? = some (.vstr t) := by
      simp [vstrs]
    have hne1 : (TagVal.vstr t ≠ .vstr ['\x7b']) ∧ (TagVal.vstr t ≠ .vstr ['[']) := by
      constructor <;>
        · intro hcontra
          injection hcontra with hc
          rw [hc] at hlen
          simp at hlen
    simp only [hhd, Bool.and_eq_false_iff]
    left
    right
    simp only [Option.some.injEq, Bool.or_eq_false_iff]
    constructor <;> simp [hne1.1, hne1.2]

/-- Normalizing the (re-wrapped) output of a normalization is a plain
clean-and-dedup pass: the repair branch can no longer fire. -/
theorem normalize_reapply (L : List TagVal) :
    normalize_tags (.list (vstrs (finalize L))) =
      finalize (vstrs (finalize L)) := by
  simp only [normalize_tags]
  rcases eq_or_ne (finalize L) [] with hnil | hne
  · rw [hnil]
    simp only [vstrs, List.map_nil, if_true]
    rfl
  · rw [if_neg (by simp [vstrs, hne]), detect_vstrs_finalize_false]
    simp

/-- Every branch of `normalize_tags` ends in the clean-and-dedup pass. -/
theorem norm_as_finalize (x : TagInput) :
    ∃ L, normalize_tags x = finalize L := by
  cases x with
  | str s =>
    by_cases hs : s = []
    · exact ⟨[], by simp [normalize_tags, hs]; rfl⟩
    · exact ⟨_, by simp only [normalize_tags, hs, if_false]; rfl⟩
  | list l =>
    by_cases hl : l = []
    · exact ⟨[], by simp [normalize_tags, hl]; rfl⟩
    · exact ⟨_, by simp only [normalize_tags, hl, if_false]; rfl⟩

/-- C5 counterexample: `normalize_tags` is not idempotent.  On the
one-element string list `["a . b"]` the first pass removes the dot
after whitespace collapsing, leaving the double-spaced token `"a  b"`;
a second pass collapses that to `"a b"`. -/
theorem tag_normalize_idempotent_counterexample :
    normalize_tags
        (.list (vstrs (normalize_tags (.list [.vstr ['a', ' ', '.', ' ', 'b']])))) ≠
      normalize_tags (.list [.vstr ['a', ' ', '.', ' ', 'b']]) := by
  decide

/-- C5 (amended: idempotence holds from the second application on, not
the first): for every input representation `x`, re-normalizing the
output of `normalize_tags ∘ normalize_tags` leaves it unchanged, i.e.
`normalize (normalize (normalize x)) = normalize (normalize x)`;
single-pass idempotence fails (see the counterexample). -/
theorem tag_normalize_idempotent_amended (x : TagInput) :
    normalize_tags
        (.list (vstrs (normalize_tags (.list (vstrs (normalize_tags x)))))) =
      normalize_tags (.list (vstrs (normalize_tags x))) := by
  obtain ⟨L, hL⟩ := norm_as_finalize x
  rw [hL, normalize_reapply L, normalize_reapply (vstrs (finalize L))]
  have hcanon := second_pass_canon L
  show finalize (vstrs (finalize (vstrs (finalize L)))) = _
  conv_lhs => rw [finalize]
  rw [normPass_vstrs_fix _ (fun t ht => hcanon t ht)]
  exact pyDedup_of_nodup _ (pyDedup_nodup _)

/-! ### Notes, the store, and the retrieval engine
(`db/models.py`, `db/crud.py`, `app/agents/tools/database_ops.py`,
`app/agents/tools/search.py`)

`Store.ranking v` is the full `ORDER BY embedding <-> v` ordering of
the notes table (the `LIMIT` of `semantic_search_pgvector` is a prefix
of it), `Store.textMatch q` is the full `ILIKE`-filtered list before
its `LIMIT`, and `Store.corpus` is the raw table.  `StoreWF` collects
the database invariants the queries guarantee: primary-key uniqueness,
ordering a permutation of the table, filtering a distinct selection
from the table. -/

structure Note where
  id : Nat
  title : PyStr
  content : PyStr
  summary : PyStr
  tags : List PyStr
  embedding : List ℚ
  created_at : Nat
deriving DecidableEq, Repr

structure Store where
  embed : PyStr → List ℚ
  ranking : List ℚ → List Note
  textMatch : PyStr → List Note
  corpus : List Note

/-- Database invariants: unique ids, vector ordering permutes the
table, text filtering selects distinct rows of the table. -/
structure StoreWF (st : Store) : Prop where
  nodup_ids : (st.corpus.map Note.id).Nodup
  rank_perm : ∀ v, (st.ranking v).Perm st.corpus
  text_sub : ∀ q, ∀ n ∈ st.textMatch q, n ∈ st.corpus
  text_nodup : ∀ q, ((st.textMatch q).map Note.id).Nodup

/-- `semantic_search_pgvector` (`db/crud.py`): order by distance, limit. -/
def semantic_search_pgvector (st : Store) (query_embedding : List ℚ)
    (top_k : Nat) : List Note :=
  (st.ranking query_embedding).take top_k

/-- `semantic_search` (`search.py`): embed the query, then search. -/
def semantic_search (st : Store) (query : PyStr) (top_k : Nat) : List Note :=
  semantic_search_pgvector st (st.embed query) top_k

/-- `get_note_by_id` (`database_ops.py`): filter by id, first. -/
def get_note_by_id (st : Store) (note_id : Nat) : Option Note :=
  st.corpus.find? fun n => n.id = note_id

/-- `search_by_content` via `search_notes_by_content`
(`database_ops.py`): `ILIKE` filter with limit. -/
def search_by_content (st : Store) (query : PyStr) (top_k : Nat) : List Note :=
  (st.textMatch query).take top_k

/-- `find_similar_notes` (`search.py`): missing note yields `[]`;
otherwise nearest neighbours of the note's own embedding, the note
itself removed, truncated. -/
def find_similar_notes (st : Store) (note_id : Nat) (top_k : Nat) : List Note :=
  match get_note_by_id st note_id with
  | none => []
  | some note =>
    ((semantic_search_pgvector st note.embedding (top_k + 1)).filter
      fun n => n.id ≠ note.id).take top_k

/-! Python-dict primitives for the hybrid merge: a dict built from a
pair list keeps, for each key, the value of the last pair (later
assignments overwrite), and its keys iterate in first-insertion
order. -/

/-- Value of `d[k]` for a dict built from `ps` (last write wins). -/
def dictGet? {β : Type} (ps : List (Nat × β)) (k : Nat) : Option β :=
  (ps.reverse.find? fun p => p.1 = k).map Prod.snd

/-- Value of `d.get(k, dflt)`. -/
def dictGetD {β : Type} (ps : List (Nat × β)) (k : Nat) (dflt : β) : β :=
  (dictGet? ps k).getD dflt

/-- The key iteration order of a dict built from `ps`. -/
def dictKeys {β : Type} (ps : List (Nat × β)) : List Nat :=
  pyDedup (ps.map Prod.fst)

/-- CPython iterates a `set` in hash-table order, not insertion order:
`hash` is the identity on small nonnegative ints and such an id
occupies the slot equal to its value, so the id sets built by
`hybrid_search` iterate in ascending id order.  `set(a) | set(b)` is
modelled as the deduplicated union sorted ascending (exact for ids
below the table size). -/
def setUnion (a b : List Nat) : List Nat :=
  (pyDedup (a ++ b)).insertionSort (· ≤ ·)

/-- The rank-score dict comprehension of `hybrid_search`:
`{note.id: 1.0 - (i / len(results)) for i, note in enumerate(results)}`
as its underlying insertion-ordered pair list. -/
def rankScores (results : List Note) : List (Nat × ℚ) :=
  results.enum.map fun p => (p.2.id, 1 - (p.1 : ℚ) / results.length)

/-- Sorting relation for `sorted(..., reverse=True)` on score pairs;
the sort is stable, so ties keep dict order. -/
def scoreDesc (a b : Nat × ℚ) : Prop := b.2 ≤ a.2

instance : DecidableRel scoreDesc := fun a b =>
  inferInstanceAs (Decidable (b.2 ≤ a.2))

instance : IsTotal (Nat × ℚ) scoreDesc :=
  ⟨fun a b => le_total b.2 a.2⟩

instance : IsTrans (Nat × ℚ) scoreDesc :=
  ⟨fun _ _ _ h1 h2 => le_trans h2 h1⟩

/-- Shallow embedding of `hybrid_search` (`search.py`).  The sort of
`combined_scores.keys()` by score is modelled by a stable sort of the
`(id, score)` pairs followed by projection, which agrees with Python's
stable `sorted` because the dict's keys are unique. -/
def hybrid_search (st : Store) (query : PyStr) (semantic_weight : ℚ)
    (top_k : Nat) : List Note :=
  let semantic_results := semantic_search st query (top_k * 2)
  let semantic_scores := rankScores semantic_results
  let text_results := search_by_content st query (top_k * 2)
  let text_scores := rankScores text_results
  let all_note_ids := setUnion (dictKeys semantic_scores) (dictKeys text_scores)
  let combined_scores := all_note_ids.map fun i =>
    (i, semantic_weight * dictGetD semantic_scores i 0 +
      (1 - semantic_weight) * dictGetD text_scores i 0)
  let sorted_ids := (combined_scores.insertionSort scoreDesc).map Prod.fst
  let notes_dict := (semantic_results ++ text_results).map fun n => (n.id, n)
  let final_results := sorted_ids.filterMap fun i =>
    if (notes_dict.map Prod.fst).contains i then dictGet? notes_dict i else none
  final_results.take top_k

/-- `get_recent_notes` (`database_ops.py`): notes ordered by
`created_at` descending, truncated to `limit`. -/
def get_recent_notes (st : Store) (limit : Nat) : List Note :=
  ((st.corpus.insertionSort fun a b => b.created_at ≤ a.created_at).take limit)

/-- `search_by_tags` via `get_notes_by_tags` (`database_ops.py`):
tag-overlap filter, truncated. -/
def search_by_tags (st : Store) (tags : List PyStr) (top_k : Nat) : List Note :=
  (st.corpus.filter fun n => n.tags.any fun t => tags.contains t).take top_k

/-- `search_notes` (`search.py`): unified dispatcher; an unknown
`search_type` raises `ValueError`, modelled as `Except.error`. -/
def search_notes (st : Store) (query : PyStr) (search_type : String)
    (top_k : Nat) : Except String (List Note) :=
  if search_type = "semantic" then .ok (semantic_search st query top_k)
  else if search_type = "text" then .ok (search_by_content st query top_k)
  else if search_type = "hybrid" then .ok (hybrid_search st query (7/10) top_k)
  else if search_type = "tags" then
    .ok (search_by_tags st ((query.splitOn ',').map pyStrip) top_k)
  else .error ("Unknown search type: " ++ search_type)

/-! Specification-side hybrid merge.  Two variants of the id union are
used: `hybridSpec` takes the union in the modelled CPython
set-iteration order (shared with `hybrid_search` through `setUnion`),
while `hybridSpecDiscovery` takes it in the insertion/discovery order
that claim C1's tie-break wording asks for. -/

/-- The rank-derived score claim C1 assigns to id `i` in one result
list: `1 - rank_index / list_length`, and `0` when the id is missing
from the list. -/
def specRankScore (l : List Note) (i : Nat) : ℚ :=
  match l.enum.find? fun p => p.2.id = i with
  | some p => 1 - (p.1 : ℚ) / l.length
  | none => 0

/-- Combined scores over the union of the two id sets, in the modelled
set-iteration order. -/
def specCombined (S T : List Note) (w : ℚ) : List (Nat × ℚ) :=
  (setUnion (S.map Note.id) (T.map Note.id)).map fun i =>
    (i, w * specRankScore S i + (1 - w) * specRankScore T i)

/-- Resolution of an id to the note instance from whichever source list
first supplied it. -/
def resolveFirst (S T : List Note) (i : Nat) : Option Note :=
  (S ++ T).find? fun n => n.id = i

/-- The reference merge: rank-score both lists, combine over the
id-set union in the modelled set-iteration order, sort descending with
stable ties, resolve ids (first-supplier instance), truncate to
`top_k`. -/
def hybridSpec (S T : List Note) (w : ℚ) (k : Nat) : List Note :=
  ((((specCombined S T w).insertionSort scoreDesc).map Prod.fst).filterMap
    (resolveFirst S T)).take k

/-- The id union in the order claim C1 words the tie-break with:
insertion/discovery order (`a`-ids first, then the `b`-only ids). -/
def specDiscoveryUnion (a b : List Nat) : List Nat := pyDedup (a ++ b)

/-- Combined scores over the id union taken in insertion/discovery
order. -/
def specCombinedDiscovery (S T : List Note) (w : ℚ) : List (Nat × ℚ) :=
  (specDiscoveryUnion (S.map Note.id) (T.map Note.id)).map fun i =>
    (i, w * specRankScore S i + (1 - w) * specRankScore T i)

/-- The merge exactly as claim C1 words it: stable descending sort with
ties kept in the insertion/discovery order of the id union. -/
def hybridSpecDiscovery (S T : List Note) (w : ℚ) (k : Nat) : List Note :=
  ((((specCombinedDiscovery S T w).insertionSort scoreDesc).map
    Prod.fst).filterMap (resolveFirst S T)).take k

/-- `find?` from the right end agrees with `find?` from the left when
all hits are equal. -/
theorem find?_reverse_of_consistent {α : Type} (l : List α) (p : α → Bool)
    (h : ∀ a ∈ l, ∀ b ∈ l, p a = true → p b = true → a = b) :
    l.reverse.find? p = l.find? p := by
  cases hf : l.find? p with
  | none =>
    rw [List.find?_eq_none] at hf ⊢
    intro x hx
    exact hf x (List.mem_reverse.mp hx)
  | some a =>
    have hpa : p a = true := List.find?_some hf
    have hma : a ∈ l := List.mem_of_find?_eq_some hf
    cases hr : l.reverse.find? p with
    | none =>
      rw [List.find?_eq_none] at hr
      exact absurd hpa (hr a (List.mem_reverse.mpr hma))
    | some b =>
      have hpb : p b = true := List.find?_some hr
      have hmb : b ∈ l := List.mem_reverse.mp (List.mem_of_find?_eq_some hr)
      rw [h b hmb a hma hpb hpa]

/-- In an id-consistent list, searching for a member's id finds that
member. -/
theorem find?_id_self (l : List Note)
    (hcons : ∀ a ∈ l, ∀ b ∈ l, a.id = b.id → a = b) (n : Note)
    (hn : n ∈ l) : (l.find? fun m => m.id = n.id) = some n := by
  cases hf : l.find? (fun m => m.id = n.id) with
  | none =>
    rw [List.find?_eq_none] at hf
    have := hf n hn
    simp at this
  | some m =>
    have hpm := List.find?_some hf
    have hmm := List.mem_of_find?_eq_some hf
    simp only [decide_eq_true_eq] at hpm
    rw [hcons m hmm n hn hpm]

theorem enumFrom_map_snd {α : Type} : ∀ (n : Nat) (l : List α),
    (List.enumFrom n l).map Prod.snd = l := by
  intro n l
  induction l generalizing n with
  | nil => rfl
  | cons x xs ih => simp [List.enumFrom_cons, ih]

theorem rankScores_map_fst (S : List Note) :
    (rankScores S).map Prod.fst = S.map Note.id := by
  unfold rankScores List.enum
  rw [List.map_map]
  have : (Prod.fst ∘ fun p : Nat × Note =>
      (p.2.id, 1 - (p.1 : ℚ) / S.length)) = Note.id ∘ Prod.snd := rfl
  rw [this, ← List.map_map, enumFrom_map_snd]

/-- Entries of a unique-key pair list agree whenever their keys do. -/
theorem pairs_consistent {β : Type} (ps : List (Nat × β))
    (h : (ps.map Prod.fst).Nodup) :
    ∀ a ∈ ps, ∀ b ∈ ps, a.1 = b.1 → a = b :=
  fun _ ha _ hb hab => List.inj_on_of_nodup_map h ha hb hab

/-- With unique keys, the Python-dict lookup (last write) agrees with
the first-match lookup. -/
theorem dictGet?_eq_find? {β : Type} (ps : List (Nat × β)) (i : Nat)
    (h : (ps.map Prod.fst).Nodup) :
    dictGet? ps i = (ps.find? fun p => p.1 = i).map Prod.snd := by
  unfold dictGet?
  rw [find?_reverse_of_consistent]
  intro a ha b hb hpa hpb
  simp only [decide_eq_true_eq] at hpa hpb
  exact pairs_consistent ps h a ha b hb (hpa.trans hpb.symm)

/-- The `.get(i, 0.0)` of the rank-score dict equals the claim's
rank-derived score. -/
theorem dictGetD_rankScores (S : List Note) (i : Nat)
    (h : (S.map Note.id).Nodup) :
    dictGetD (rankScores S) i 0 = specRankScore S i := by
  unfold dictGetD specRankScore
  rw [dictGet?_eq_find? _ _ (by rw [rankScores_map_fst]; exact h)]
  unfold rankScores
  rw [List.find?_map]
  have hp : ((fun p : Nat × ℚ => decide (p.1 = i)) ∘ fun p : Nat × Note =>
      (p.2.id, 1 - (p.1 : ℚ) / S.length)) = fun p : Nat × Note =>
      decide (p.2.id = i) := rfl
  rw [hp]
  cases hf : S.enum.find? (fun p => decide (p.2.id = i)) with
  | none => rfl
  | some p => rfl

/-- Under id-consistency, the source's membership-checked dict
resolution equals the claim's first-supplier resolution. -/
theorem resolve_eq (S T : List Note)
    (hcons : ∀ a ∈ S ++ T, ∀ b ∈ S ++ T, a.id = b.id → a = b) (i : Nat) :
    (if ((((S ++ T).map fun n => (n.id, n)).map Prod.fst).contains i) then
      dictGet? ((S ++ T).map fun n => (n.id, n)) i
     else none) = resolveFirst S T i := by
  set l := S ++ T with hl
  have hget : dictGet? (l.map fun n => (n.id, n)) i =
      l.reverse.find? fun n => n.id = i := by
    unfold dictGet?
    rw [← List.map_reverse, List.find?_map]
    have hp : ((fun p : Nat × Note => decide (p.1 = i)) ∘ fun n : Note =>
        (n.id, n)) = fun n : Note => decide (n.id = i) := rfl
    rw [hp]
    cases l.reverse.find? (fun n => decide (n.id = i)) <;> rfl
  have hrev : l.reverse.find? (fun n => n.id = i) =
      l.find? fun n => n.id = i := by
    apply find?_reverse_of_consistent
    intro a ha b hb hpa hpb
    simp only [decide_eq_true_eq] at hpa hpb
    exact hcons a ha b hb (hpa.trans hpb.symm)
  have hkeys : ((l.map fun n => (n.id, n)).map Prod.fst) = l.map Note.id := by
    rw [List.map_map]; rfl
  rw [hkeys, hget, hrev]
  unfold resolveFirst
  rw [← hl]
  cases hf : l.find? (fun n => n.id = i) with
  | some n =>
    have hpn := List.find?_some hf
    have hmn := List.mem_of_find?_eq_some hf
    simp only [decide_eq_true_eq] at hpn
    rw [if_pos]
    simp only [List.contains_eq_any_beq, List.any_eq_true]
    exact ⟨n.id, List.mem_map_of_mem Note.id hmn, by simp [hpn]⟩
  | none =>
    rw [List.find?_eq_none] at hf
    rw [if_neg]
    intro hcontra
    simp only [List.contains_eq_any_beq, List.any_eq_true] at hcontra
    rcases hcontra with ⟨j, hj, hji⟩
    rcases List.mem_map.mp hj with ⟨n, hn, rfl⟩
    have : n.id = i := by
      have h' : i = n.id := by simpa using hji
      exact h'.symm
    exact hf n hn (by simp [this])

/-- Helper: over any store satisfying the database invariants,
`hybrid_search` coincides with the specification-side merge
`hybridSpec` of its two sub-result lists. -/
theorem hybrid_search_eq_hybridSpec (st : Store) (q : PyStr)
    (w : ℚ) (k : Nat) (hwf : StoreWF st) :
    hybrid_search st q w k =
      hybridSpec (semantic_search st q (k * 2))
        (search_by_content st q (k * 2)) w k := by
  have hRnd : ((st.ranking (st.embed q)).map Note.id).Nodup := by
    have hperm := (hwf.rank_perm (st.embed q)).map Note.id
    exact hperm.nodup_iff.mpr hwf.nodup_ids
  have hSnd : ((semantic_search st q (k * 2)).map Note.id).Nodup := by
    unfold semantic_search semantic_search_pgvector
    rw [List.map_take]
    exact hRnd.sublist (List.take_sublist _ _)
  have hTnd : ((search_by_content st q (k * 2)).map Note.id).Nodup := by
    unfold search_by_content
    rw [List.map_take]
    exact (hwf.text_nodup q).sublist (List.take_sublist _ _)
  have hcorpus : ∀ n ∈ semantic_search st q (k * 2) ++
      search_by_content st q (k * 2), n ∈ st.corpus := by
    intro n hn
    rcases List.mem_append.mp hn with hn | hn
    · unfold semantic_search semantic_search_pgvector at hn
      exact (hwf.rank_perm (st.embed q)).mem_iff.mp
        (List.mem_of_mem_take hn)
    · unfold search_by_content at hn
      exact hwf.text_sub q n (List.mem_of_mem_take hn)
  have hcons : ∀ a ∈ semantic_search st q (k * 2) ++
        search_by_content st q (k * 2),
      ∀ b ∈ semantic_search st q (k * 2) ++ search_by_content st q (k * 2),
      a.id = b.id → a = b := by
    intro a ha b hb hab
    exact List.inj_on_of_nodup_map hwf.nodup_ids (hcorpus a ha)
      (hcorpus b hb) hab
  simp only [hybrid_search, hybridSpec]
  set S := semantic_search st q (k * 2) with hS
  set T := search_by_content st q (k * 2) with hT
  have hkeysS : dictKeys (rankScores S) = S.map Note.id := by
    unfold dictKeys
    rw [rankScores_map_fst]
    exact pyDedup_of_nodup _ hSnd
  have hkeysT : dictKeys (rankScores T) = T.map Note.id := by
    unfold dictKeys
    rw [rankScores_map_fst]
    exact pyDedup_of_nodup _ hTnd
  rw [hkeysS, hkeysT]
  have hcomb : ((setUnion (S.map Note.id) (T.map Note.id)).map fun i =>
      (i, w * dictGetD (rankScores S) i 0 +
        (1 - w) * dictGetD (rankScores T) i 0)) = specCombined S T w := by
    unfold specCombined
    apply List.map_congr_left
    intro i _
    rw [dictGetD_rankScores S i hSnd, dictGetD_rankScores T i hTnd]
  rw [hcomb]
  have hres : (fun i => if (((S ++ T).map fun n => (n.id, n)).map
        Prod.fst).contains i then
      dictGet? ((S ++ T).map fun n => (n.id, n)) i else none) =
      resolveFirst S T :=
    funext (resolve_eq S T hcons)
  rw [hres]

/-- Concrete notes and stores used for witnesses/counterexamples. -/
def noteA : Note := ⟨1, ['a'], ['c', 'a', 't'], ['s'], [], [1, 0], 5⟩

def noteB : Note := ⟨2, ['b'], ['d', 'o', 'g'], ['s'], [], [0, 1], 6⟩

def noteC : Note := ⟨3, ['e'], ['f', 'o', 'x'], ['s'], [], [1, 1], 7⟩

/-- A two-note store whose text search matches only `noteB`. -/
def wStore : Store :=
  { embed := fun _ => [1, 0], ranking := fun _ => [noteA, noteB],
    textMatch := fun _ => [noteB], corpus := [noteA, noteB] }

theorem wStoreWF : StoreWF wStore :=
  ⟨by decide, fun _ => List.Perm.refl _,
   fun _ n h => List.mem_cons_of_mem noteA h,
   fun _ => (by decide : ([2] : List Nat).Nodup)⟩

/-- A three-note store producing a combined-score tie between ids `1`
and `2` at weight `1/3` and `top_k = 1`: the vector ranking starts
`noteB, noteC` and the text search matches `noteA, noteB`. -/
def tieStore : Store :=
  { embed := fun _ => [1, 0], ranking := fun _ => [noteB, noteC, noteA],
    textMatch := fun _ => [noteA, noteB], corpus := [noteA, noteB, noteC] }

theorem tieStoreWF : StoreWF tieStore :=
  ⟨by decide,
   fun _ => ((List.Perm.swap noteA noteC []).cons noteB).trans
     (List.Perm.swap noteA noteB [noteC]),
   fun _ n h => by
     rcases List.mem_cons.mp h with rfl | h'
     · exact List.mem_cons_self _ _
     · rcases List.mem_cons.mp h' with rfl | h''
       · exact List.mem_cons_of_mem _ (List.mem_cons_self _ _)
       · simp at h'',
   fun _ => (by decide : ([1, 2] : List Nat).Nodup)⟩

/-- C1 counterexample: on a well-formed store where ids `1` and `2` tie
at combined score `2/3` (weight `1/3`, `top_k = 1`, semantic sub-list
`[noteB, noteC]`, text sub-list `[noteA, noteB]`), `hybrid_search`
breaks the tie by the set-iteration order of the id union (ascending
id) and returns `noteA` (id `1`), while the claim's
insertion/discovery-order tie-break would put `noteB` (id `2`,
discovered first by the semantic list) first. -/
theorem hybrid_tie_break_counterexample :
    StoreWF tieStore ∧
      hybrid_search tieStore ['c'] (1 / 3) 1 ≠
        hybridSpecDiscovery (semantic_search tieStore ['c'] (1 * 2))
          (search_by_content tieStore ['c'] (1 * 2)) (1 / 3) 1 := by
  refine ⟨tieStoreWF, ?_⟩
  intro h
  have h1 : hybrid_search tieStore ['c'] (1 / 3) 1 = [noteA] := by
    norm_num [hybrid_search, semantic_search, semantic_search_pgvector,
      search_by_content, tieStore, rankScores, dictKeys, pyDedup, dedupAux,
      setUnion, dictGetD, dictGet?, List.insertionSort, List.orderedInsert,
      scoreDesc, noteA, noteB, noteC, List.enum, List.enumFrom]
    norm_num [List.filterMap, List.find?, noteA, noteB, noteC]
  have h2 : hybridSpecDiscovery (semantic_search tieStore ['c'] (1 * 2))
      (search_by_content tieStore ['c'] (1 * 2)) (1 / 3) 1 = [noteB] := by
    norm_num [hybridSpecDiscovery, specCombinedDiscovery, specDiscoveryUnion,
      specRankScore, resolveFirst, semantic_search, semantic_search_pgvector,
      search_by_content, tieStore, pyDedup, dedupAux, List.insertionSort,
      List.orderedInsert, scoreDesc, noteA, noteB, noteC, List.enum,
      List.enumFrom]
    norm_num [List.filterMap, resolveFirst, List.find?, noteA, noteB, noteC]
  rw [h1, h2] at h
  exact absurd (congrArg (List.map Note.id) h) (by decide)

/-- C1 (amended): for every query, weight in `[0,1]` and `top_k`, over
any store satisfying the database invariants, `hybrid_search`
implements the claimed merge with one correction: rank-derived scores
`1 - rank/length` per sub-result list, weighted combination over the
union of the two id sets with `0` for a missing component, stable
descending sort, truncation to `top_k`, and id resolution to the note
instance of the first-supplying list (by primary-key uniqueness this
is the instance of every supplying list, so the source's last-write
dict build is equivalent) — but combined-score ties are broken by
CPython's set-iteration order of the id union (ascending id for small
integer ids), not by insertion/discovery order. -/
theorem hybrid_merge_amended (st : Store) (q : PyStr)
    (w : ℚ) (k : Nat) (hwf : StoreWF st) (_hw0 : 0 ≤ w) (_hw1 : w ≤ 1) :
    hybrid_search st q w k =
      hybridSpec (semantic_search st q (k * 2))
        (search_by_content st q (k * 2)) w k :=
  hybrid_search_eq_hybridSpec st q w k hwf

/-- Witness for C1 (amended) at a concrete store, query, weight and
`top_k`. -/
theorem hybrid_merge_amended_witness :
    (StoreWF wStore ∧ (0 : ℚ) ≤ 7 / 10 ∧ (7 : ℚ) / 10 ≤ 1) ∧
      hybrid_search wStore ['c'] (7 / 10) 1 =
        hybridSpec (semantic_search wStore ['c'] (1 * 2))
          (search_by_content wStore ['c'] (1 * 2)) (7 / 10) 1 :=
  ⟨⟨wStoreWF, by norm_num, by norm_num⟩,
   hybrid_merge_amended wStore ['c'] (7 / 10) 1 wStoreWF
     (by norm_num) (by norm_num)⟩

/-! Positional rank scores, and the order-insensitive structure of the
sorted combined entries (used to settle claims C1 and C2). -/

theorem mem_enumFrom_snd {α : Type} :
    ∀ (l : List α) (n : Nat) (p : Nat × α), p ∈ l.enumFrom n → p.2 ∈ l := by
  intro l
  induction l with
  | nil => intro n p h; simp at h
  | cons x xs ih =>
    intro n p h
    rw [List.enumFrom_cons] at h
    rcases List.mem_cons.mp h with rfl | h'
    · exact List.mem_cons_self _ _
    · exact List.mem_cons_of_mem _ (ih (n + 1) p h')

/-- In a list with unique ids, searching the enumeration for the id of
the `j`-th element finds exactly position `j`. -/
theorem find?_enumFrom_at (S : List Note) (hnd : (S.map Note.id).Nodup) :
    ∀ (n j : Nat) (hj : j < S.length),
      (S.enumFrom n).find? (fun p => p.2.id = S[j].id) = some (n + j, S[j]) := by
  induction S with
  | nil => intro n j hj; simp at hj
  | cons x xs ih =>
    intro n j hj
    rw [List.enumFrom_cons]
    cases j with
    | zero =>
      rw [List.find?_cons_of_pos]
      · simp
      · simp
    | succ j' =>
      have hj' : j' < xs.length := by simpa using hj
      have hne : x.id ≠ xs[j'].id := by
        rcases List.nodup_cons.mp hnd with ⟨hx, _⟩
        intro hcontra
        exact hx (hcontra ▸ List.mem_map_of_mem Note.id (xs.getElem_mem hj'))
      rw [List.find?_cons_of_neg]
      · have := ih (List.nodup_cons.mp hnd).2 (n + 1) j' hj'
        simp only [List.getElem_cons_succ]
        rw [this]
        have harith : n + 1 + j' = n + (j' + 1) := by omega
        rw [harith]
      · simp only [List.getElem_cons_succ, decide_eq_true_eq]
        exact hne

/-- The claim's rank-derived score of the `j`-th element of a
unique-id list. -/
theorem specRankScore_at (S : List Note) (hnd : (S.map Note.id).Nodup)
    (j : Nat) (hj : j < S.length) :
    specRankScore S (S[j].id) = 1 - (j : ℚ) / S.length := by
  unfold specRankScore List.enum
  rw [find?_enumFrom_at S hnd 0 j hj]
  simp

/-- Ids absent from a list score `0`. -/
theorem specRankScore_zero (S : List Note) (i : Nat)
    (h : i ∉ S.map Note.id) : specRankScore S i = 0 := by
  unfold specRankScore
  cases hf : S.enum.find? (fun p => p.2.id = i) with
  | none => rfl
  | some p =>
    have hp := List.find?_some hf
    have hm := List.mem_of_find?_eq_some hf
    simp only [decide_eq_true_eq] at hp
    exact absurd (hp ▸ List.mem_map_of_mem Note.id
      (mem_enumFrom_snd S 0 p hm)) h

/-- Strict descending order on score pairs. -/
def scoreLT (a b : Nat × ℚ) : Prop := b.2 < a.2

/-- Two strictly descending permutations of each other are equal. -/
theorem strict_perm_eq : ∀ (l1 l2 : List (Nat × ℚ)), l1.Perm l2 →
    l1.Pairwise scoreLT → l2.Pairwise scoreLT → l1 = l2 := by
  intro l1
  induction l1 with
  | nil =>
    intro l2 hp _ _
    rw [List.perm_nil.mp hp.symm]
  | cons a as ih =>
    intro l2 hp h1 h2
    cases l2 with
    | nil => exact absurd (List.perm_nil.mp hp) (by simp)
    | cons b bs =>
      by_cases hab : a = b
      · subst hab
        rw [ih bs (hp.cons_inv) h1.of_cons h2.of_cons]
      · have hamem : a ∈ b :: bs := hp.mem_iff.mp (List.mem_cons_self _ _)
        have hbmem : b ∈ a :: as := hp.mem_iff.mpr (List.mem_cons_self _ _)
        have habs : a ∈ bs := by
          rcases List.mem_cons.mp hamem with h | h
          · exact absurd h hab
          · exact h
        have hbas : b ∈ as := by
          rcases List.mem_cons.mp hbmem with h | h
          · exact absurd h.symm hab
          · exact h
        have h1' : b.2 < a.2 := (List.pairwise_cons.mp h1).1 b hbas
        have h2' : a.2 < b.2 := (List.pairwise_cons.mp h2).1 a habs
        exact absurd (h1'.trans h2') (lt_irrefl _)

/-- A list sorted in descending score order is its positive-score part
followed by its non-positive part. -/
theorem sorted_pos_split : ∀ (l : List (Nat × ℚ)), l.Pairwise scoreDesc →
    l = (l.filter fun e => decide (0 < e.2)) ++
      (l.filter fun e => !decide (0 < e.2)) := by
  intro l
  induction l with
  | nil => intro _; rfl
  | cons a as ih =>
    intro hp
    rcases List.pairwise_cons.mp hp with ⟨hrest, htail⟩
    by_cases hpos : 0 < a.2
    · rw [List.filter_cons_of_pos (by simp [hpos]),
        List.filter_cons_of_neg (by simp [hpos])]
      rw [List.cons_append, ← ih htail]
    · have hall : ∀ b ∈ as, ¬(0 < b.2) := by
        intro b hb
        have := hrest b hb
        unfold scoreDesc at this
        intro hcontra
        have ha2 : a.2 ≤ 0 := le_of_not_lt hpos
        exact absurd (lt_of_lt_of_le hcontra (this.trans ha2)) (lt_irrefl _)
      rw [List.filter_cons_of_neg (by simp [hpos]),
        List.filter_cons_of_pos (by simp [hpos])]
      have hfp : (as.filter fun e => decide (0 < e.2)) = [] := by
        rw [List.filter_eq_nil_iff]
        intro b hb
        simp [hall b hb]
      have hfn : (as.filter fun e => !decide (0 < e.2)) = as := by
        rw [List.filter_eq_self]
        intro b hb
        simp [hall b hb]
      rw [hfp, hfn]
      rfl

/-- Weakly sorted with pairwise-distinct scores is strictly sorted. -/
theorem pairwise_strict_of_nodup (l : List (Nat × ℚ))
    (hs : l.Pairwise scoreDesc) (hnd : (l.map Prod.snd).Nodup) :
    l.Pairwise scoreLT := by
  have hne : l.Pairwise fun a b => a.2 ≠ b.2 := by
    rw [List.Nodup, List.pairwise_map] at hnd
    exact hnd
  have := hs.and hne
  exact this.imp fun h => lt_of_le_of_ne h.1 (Ne.symm h.2)

theorem length_rankScores (S : List Note) :
    (rankScores S).length = S.length := by
  simp [rankScores, List.enum_length]

theorem getElem_rankScores (S : List Note) (j : Nat)
    (hj : j < (rankScores S).length) (hj2 : j < S.length) :
    (rankScores S)[j] = (S[j].id, 1 - (j : ℚ) / S.length) := by
  unfold rankScores List.enum
  simp

/-- Mapping the claim's rank score over the id list gives the explicit
entry list. -/
theorem map_rankScore_eq_rankScores (S : List Note)
    (hnd : (S.map Note.id).Nodup) :
    (S.map Note.id).map (fun i => (i, specRankScore S i)) = rankScores S := by
  apply List.ext_getElem
  · simp [length_rankScores]
  · intro j h1 h2
    have hj : j < S.length := by simpa using h1
    simp only [List.getElem_map]
    rw [getElem_rankScores S j h2 hj, specRankScore_at S hnd j hj]

/-- The explicit entry list is strictly descending in score. -/
theorem rankScores_strict (S : List Note) :
    (rankScores S).Pairwise scoreLT := by
  rw [List.pairwise_iff_getElem]
  intro i j hi hj hij
  have hi2 : i < S.length := by simpa [length_rankScores] using hi
  have hj2 : j < S.length := by simpa [length_rankScores] using hj
  rw [getElem_rankScores S i hi hi2, getElem_rankScores S j hj hj2]
  unfold scoreLT
  simp only
  have hlen : 0 < (S.length : ℚ) := by
    have : 0 < S.length := by omega
    exact_mod_cast this
  have hcast : (i : ℚ) < j := by exact_mod_cast hij
  have hdiv : (i : ℚ) / S.length < (j : ℚ) / S.length := by gcongr
  linarith

/-- Every explicit entry has a positive score. -/
theorem rankScores_pos (S : List Note) :
    ∀ e ∈ rankScores S, 0 < e.2 := by
  intro e he
  unfold rankScores at he
  rcases List.mem_map.mp he with ⟨p, hp, rfl⟩
  simp only
  have hlt : p.1 < S.length := by
    unfold List.enum at hp
    have h1 := List.fst_lt_add_of_mem_enumFrom hp
    simpa using h1
  have hlen : 0 < (S.length : ℚ) := by
    have : 0 < S.length := by omega
    exact_mod_cast this
  have : (p.1 : ℚ) / S.length < 1 := by
    rw [div_lt_one hlen]
    exact_mod_cast hlt
  linarith

theorem mem_dedupAux_of_mem {α : Type} [DecidableEq α] :
    ∀ (l seen : List α) (x : α), x ∈ l → seen.contains x = false →
      x ∈ dedupAux seen l := by
  intro l
  induction l with
  | nil => intro seen x hx _; simp at hx
  | cons y ys ih =>
    intro seen x hx hseen
    unfold dedupAux
    rcases List.mem_cons.mp hx with rfl | hx'
    · rw [if_neg (by rw [hseen]; simp)]
      exact List.mem_cons_self _ _
    · by_cases hy : seen.contains y
      · rw [if_pos hy]
        exact ih seen x hx' hseen
      · rw [if_neg hy]
        by_cases hxy : x = y
        · subst hxy
          exact List.mem_cons_self _ _
        · refine List.mem_cons_of_mem _ (ih (y :: seen) x hx' ?_)
          simp only [List.contains_cons]
          rw [hseen]
          simp only [Bool.or_false]
          simpa [beq_eq_false_iff_ne] using hxy

theorem mem_pyDedup_iff {α : Type} [DecidableEq α] (l : List α) (x : α) :
    x ∈ pyDedup l ↔ x ∈ l :=
  ⟨pyDedup_subset l x, fun h => mem_dedupAux_of_mem l [] x h rfl⟩

/-- The modelled set union has no duplicates. -/
theorem setUnion_nodup (a b : List Nat) : (setUnion a b).Nodup :=
  ((List.perm_insertionSort _ _).nodup_iff).mpr (pyDedup_nodup _)

/-- Membership in the modelled set union. -/
theorem mem_setUnion (a b : List Nat) (x : Nat) :
    x ∈ setUnion a b ↔ x ∈ a ∨ x ∈ b := by
  unfold setUnion
  rw [(List.perm_insertionSort _ _).mem_iff, mem_pyDedup_iff,
    List.mem_append]

/-- Resolving the ids of a sub-list of an id-consistent list recovers
the sub-list. -/
theorem filterMap_resolve (P l : List Note) (hsub : ∀ n ∈ P, n ∈ l)
    (hcons : ∀ a ∈ l, ∀ b ∈ l, a.id = b.id → a = b) :
    ((P.map Note.id).filterMap fun i => l.find? fun m => m.id = i) = P := by
  induction P with
  | nil => rfl
  | cons n ns ih =>
    simp only [List.map_cons]
    rw [List.filterMap_cons_some]
    · rw [ih fun m hm => hsub m (List.mem_cons_of_mem _ hm)]
    · exact find?_id_self l hcons n (hsub n (List.mem_cons_self _ _))

theorem zero_entries_pairwise (ids : List Nat) :
    (ids.map fun i => (i, (0 : ℚ))).Pairwise scoreDesc := by
  induction ids with
  | nil => simp
  | cons i is ih =>
    simp only [List.map_cons]
    refine List.pairwise_cons.mpr ⟨?_, ih⟩
    intro b hb
    rcases List.mem_map.mp hb with ⟨j, _, rfl⟩
    exact le_refl (0 : ℚ)

/-- The score pairs of a strictly descending list have distinct
scores. -/
theorem nodup_snd_of_strict (l : List (Nat × ℚ))
    (h : l.Pairwise scoreLT) : (l.map Prod.snd).Nodup := by
  rw [List.Nodup, List.pairwise_map]
  exact h.imp fun hab => ne_of_gt hab

/-- Core of the extreme-weight analyses, insensitive to the iteration
order of the id union: sorting the entries `(i, specRankScore P i)`
over any duplicate-free id list `U` covering the ids of `P` yields the
positively-scored entries — exactly `rankScores P` — followed by
zero-scored ids outside `P`. -/
theorem sort_rank_entries (P : List Note) (U : List Nat)
    (hUnd : U.Nodup) (hPnd : (P.map Note.id).Nodup)
    (hPsub : ∀ i ∈ P.map Note.id, i ∈ U) :
    ∃ zids : List Nat,
      ((U.map fun i => (i, specRankScore P i)).insertionSort scoreDesc =
        rankScores P ++ zids.map fun i => (i, (0 : ℚ))) ∧
      ∀ i ∈ zids, i ∈ U ∧ i ∉ P.map Note.id := by
  set cmb := U.map fun i => (i, specRankScore P i) with hcmb
  set res := cmb.insertionSort scoreDesc with hres
  have hperm : res.Perm cmb := List.perm_insertionSort scoreDesc cmb
  have hsorted : res.Pairwise scoreDesc :=
    List.sorted_insertionSort scoreDesc cmb
  have hsplit := sorted_pos_split res hsorted
  set pos := res.filter fun e => decide (0 < e.2) with hposdef
  set neg := res.filter (fun e => !decide (0 < e.2)) with hnegdef
  have hposmem : ∀ i ∈ P.map Note.id, 0 < specRankScore P i := by
    intro i hi
    have : (i, specRankScore P i) ∈ rankScores P := by
      rw [← map_rankScore_eq_rankScores P hPnd]
      exact List.mem_map_of_mem _ hi
    exact rankScores_pos P _ this
  have hposperm : pos.Perm (rankScores P) := by
    have h2 : pos.Perm (cmb.filter fun e => decide (0 < e.2)) :=
      hperm.filter _
    have h3 : (cmb.filter fun e => decide (0 < e.2)) =
        (U.filter ((fun e : Nat × ℚ => decide (0 < e.2)) ∘ fun i =>
          (i, specRankScore P i))).map fun i => (i, specRankScore P i) := by
      rw [hcmb, List.filter_map]
    have h4 : (U.filter ((fun e : Nat × ℚ => decide (0 < e.2)) ∘ fun i =>
        (i, specRankScore P i))).Perm (P.map Note.id) := by
      apply (List.perm_ext_iff_of_nodup (hUnd.filter _) hPnd).mpr
      intro i
      constructor
      · intro hi
        rcases List.mem_filter.mp hi with ⟨_, hpos⟩
        simp only [Function.comp, decide_eq_true_eq] at hpos
        by_contra hnot
        rw [specRankScore_zero P i hnot] at hpos
        exact lt_irrefl 0 hpos
      · intro hi
        apply List.mem_filter.mpr
        refine ⟨hPsub i hi, ?_⟩
        simp only [Function.comp, decide_eq_true_eq]
        exact hposmem i hi
    have h5 := h4.map fun i => (i, specRankScore P i)
    rw [map_rankScore_eq_rankScores P hPnd] at h5
    exact (h3 ▸ h2).trans h5
  have hposstrict : pos.Pairwise scoreLT := by
    apply pairwise_strict_of_nodup
    · exact hsorted.sublist (List.filter_sublist res)
    · exact ((hposperm.map Prod.snd).nodup_iff).mpr
        (nodup_snd_of_strict _ (rankScores_strict P))
  have hpos_eq : pos = rankScores P :=
    strict_perm_eq pos (rankScores P) hposperm hposstrict
      (rankScores_strict P)
  have hneg_char : ∀ e ∈ neg, e = (e.1, (0 : ℚ)) ∧ e.1 ∈ U ∧
      e.1 ∉ P.map Note.id := by
    intro e he
    have he' : e ∈ res.filter (fun x => !decide (0 < x.2)) := hnegdef ▸ he
    have hcmb_mem : e ∈ cmb := hperm.mem_iff.mp (List.mem_of_mem_filter he')
    have hnp : (!decide (0 < e.2)) = true := (List.mem_filter.mp he').2
    rcases List.mem_map.mp (hcmb ▸ hcmb_mem) with ⟨i, hiU, rfl⟩
    have hnotpos : ¬(0 < specRankScore P i) := by
      intro hc
      have hb : (!decide (0 < specRankScore P i)) = true := hnp
      rw [decide_eq_true hc] at hb
      exact absurd hb (by decide)
    have hnotin : i ∉ P.map Note.id := fun hc => hnotpos (hposmem i hc)
    refine ⟨?_, hiU, hnotin⟩
    rw [specRankScore_zero P i hnotin]
  refine ⟨neg.map Prod.fst, ?_, ?_⟩
  · rw [hsplit, hpos_eq, List.map_map]
    congr 1
    symm
    have hfix : ∀ e ∈ neg, ((fun i : Nat => (i, (0 : ℚ))) ∘ Prod.fst) e = e :=
      fun e he => ((hneg_char e he).1).symm
    exact map_fix _ neg hfix
  · intro i hi
    rcases List.mem_map.mp hi with ⟨e, he, rfl⟩
    exact ⟨(hneg_char e he).2.1, (hneg_char e he).2.2⟩


/-- With weight `1`, the specification merge is the semantic list
followed by some zero-scored trailing notes, truncated; the tail is
empty whenever every text id also occurs among the semantic ids. -/
theorem hybridSpec_weight_one (S T : List Note)
    (hS : (S.map Note.id).Nodup) (_hT : (T.map Note.id).Nodup)
    (hcons : ∀ a ∈ S ++ T, ∀ b ∈ S ++ T, a.id = b.id → a = b) (k : Nat) :
    ∃ Zn : List Note,
      hybridSpec S T 1 k = (S ++ Zn).take k ∧
      ((∀ i ∈ T.map Note.id, i ∈ S.map Note.id) → Zn = []) := by
  unfold hybridSpec
  have h1 : specCombined S T 1 =
      (setUnion (S.map Note.id) (T.map Note.id)).map fun i =>
        (i, specRankScore S i) := by
    unfold specCombined
    apply List.map_congr_left
    intro i _
    norm_num
  rw [h1]
  obtain ⟨zids, hsort, hz⟩ := sort_rank_entries S
    (setUnion (S.map Note.id) (T.map Note.id))
    (setUnion_nodup _ _) hS
    (fun i hi => (mem_setUnion _ _ i).mpr (Or.inl hi))
  rw [hsort, List.map_append, rankScores_map_fst, List.map_map]
  have hfst : ((fun p : Nat × ℚ => p.1) ∘ fun i => (i, (0 : ℚ))) =
      fun i : Nat => i := rfl
  rw [hfst, List.map_id', List.filterMap_append]
  unfold resolveFirst
  rw [filterMap_resolve S (S ++ T)
    (fun n hn => List.mem_append_left _ hn) hcons]
  refine ⟨zids.filterMap fun i => (S ++ T).find? fun m => m.id = i,
    rfl, ?_⟩
  intro hTsub
  have hznil : zids = [] := by
    by_contra hne
    rcases List.exists_mem_of_ne_nil zids hne with ⟨z, hzmem⟩
    rcases hz z hzmem with ⟨hzU, hzP⟩
    rcases (mem_setUnion _ _ z).mp hzU with h | h
    · exact hzP h
    · exact hzP (hTsub z h)
  rw [hznil]
  rfl

/-- With weight `0`, the specification merge starts with the full text
sub-result list (the remaining entries are zero-scored semantic-only
notes). -/
theorem hybridSpec_weight_zero (S T : List Note)
    (_hS : (S.map Note.id).Nodup) (hT : (T.map Note.id).Nodup)
    (hcons : ∀ a ∈ S ++ T, ∀ b ∈ S ++ T, a.id = b.id → a = b) (k : Nat) :
    ∃ Zn : List Note, hybridSpec S T 0 k = (T ++ Zn).take k := by
  unfold hybridSpec
  have h1 : specCombined S T 0 =
      (setUnion (S.map Note.id) (T.map Note.id)).map fun i =>
        (i, specRankScore T i) := by
    unfold specCombined
    apply List.map_congr_left
    intro i _
    norm_num
  rw [h1]
  obtain ⟨zids, hsort, _⟩ := sort_rank_entries T
    (setUnion (S.map Note.id) (T.map Note.id))
    (setUnion_nodup _ _) hT
    (fun i hi => (mem_setUnion _ _ i).mpr (Or.inr hi))
  rw [hsort, List.map_append, rankScores_map_fst, List.map_map]
  have hfst : ((fun p : Nat × ℚ => p.1) ∘ fun i => (i, (0 : ℚ))) =
      fun i : Nat => i := rfl
  rw [hfst, List.map_id', List.filterMap_append]
  unfold resolveFirst
  rw [filterMap_resolve T (S ++ T)
    (fun n hn => List.mem_append_right _ hn) hcons]
  exact ⟨zids.filterMap fun i => (S ++ T).find? fun m => m.id = i, rfl⟩

/-- The database invariants induce uniqueness and id-consistency of the
two sub-result lists of a search. -/
theorem storeWF_consequences (st : Store) (q : PyStr) (m : Nat)
    (hwf : StoreWF st) :
    ((semantic_search st q m).map Note.id).Nodup ∧
    ((search_by_content st q m).map Note.id).Nodup ∧
    ∀ a ∈ semantic_search st q m ++ search_by_content st q m,
      ∀ b ∈ semantic_search st q m ++ search_by_content st q m,
      a.id = b.id → a = b := by
  have hRnd : ((st.ranking (st.embed q)).map Note.id).Nodup := by
    have hperm := (hwf.rank_perm (st.embed q)).map Note.id
    exact hperm.nodup_iff.mpr hwf.nodup_ids
  refine ⟨?_, ?_, ?_⟩
  · unfold semantic_search semantic_search_pgvector
    rw [List.map_take]
    exact hRnd.sublist (List.take_sublist _ _)
  · unfold search_by_content
    rw [List.map_take]
    exact (hwf.text_nodup q).sublist (List.take_sublist _ _)
  · have hcorpus : ∀ n ∈ semantic_search st q m ++ search_by_content st q m,
        n ∈ st.corpus := by
      intro n hn
      rcases List.mem_append.mp hn with hn | hn
      · unfold semantic_search semantic_search_pgvector at hn
        exact (hwf.rank_perm (st.embed q)).mem_iff.mp
          (List.mem_of_mem_take hn)
      · unfold search_by_content at hn
        exact hwf.text_sub q n (List.mem_of_mem_take hn)
    intro a ha b hb hab
    exact List.inj_on_of_nodup_map hwf.nodup_ids (hcorpus a ha)
      (hcorpus b hb) hab

/-- C2 (amended): with weight `1.0` the hybrid result equals the pure
semantic order restricted to `top_k`; with weight `0.0` its first
`min top_k L` entries (`L` the number of lexical matches) equal the
pure lexical order restricted to `top_k` — the full equality claimed
for weight `0.0` fails when the lexical search has fewer than `top_k`
matches, because zero-scored semantic-only notes pad the tail. -/
theorem hybrid_weight_extremes_amended (st : Store) (q : PyStr) (k : Nat)
    (hwf : StoreWF st) :
    hybrid_search st q 1 k = semantic_search st q k ∧
    (hybrid_search st q 0 k).take (min k (st.textMatch q).length) =
      search_by_content st q k := by
  obtain ⟨hSnd, hTnd, hcons⟩ := storeWF_consequences st q (k * 2) hwf
  constructor
  · rw [hybrid_search_eq_hybridSpec st q 1 k hwf]
    obtain ⟨Zn, hEq, hZnil⟩ := hybridSpec_weight_one _ _ hSnd hTnd hcons k
    rw [hEq]
    by_cases hk : k ≤ (semantic_search st q (k * 2)).length
    · rw [List.take_append_of_le_length hk]
      unfold semantic_search semantic_search_pgvector
      rw [List.take_take]
      congr 1
      omega
    · push_neg at hk
      have hlenS : (semantic_search st q (k * 2)).length =
          min (k * 2) (st.ranking (st.embed q)).length := by
        unfold semantic_search semantic_search_pgvector
        exact List.length_take _ _
      have hRlt : (st.ranking (st.embed q)).length < k := by omega
      have hSR : semantic_search st q (k * 2) = st.ranking (st.embed q) := by
        unfold semantic_search semantic_search_pgvector
        exact List.take_of_length_le (by omega)
      have hTsub : ∀ i ∈ (search_by_content st q (k * 2)).map Note.id,
          i ∈ (semantic_search st q (k * 2)).map Note.id := by
        intro i hi
        rcases List.mem_map.mp hi with ⟨n, hn, rfl⟩
        have hnc : n ∈ st.corpus := by
          unfold search_by_content at hn
          exact hwf.text_sub q n (List.mem_of_mem_take hn)
        have hnR : n ∈ semantic_search st q (k * 2) := by
          rw [hSR]
          exact (hwf.rank_perm (st.embed q)).mem_iff.mpr hnc
        exact List.mem_map_of_mem Note.id hnR
      rw [hZnil hTsub, List.append_nil, hSR]
      unfold semantic_search semantic_search_pgvector
      rw [List.take_of_length_le (by omega)]
  · rw [hybrid_search_eq_hybridSpec st q 0 k hwf]
    obtain ⟨Zn, hZn⟩ := hybridSpec_weight_zero _ _ hSnd hTnd hcons k
    rw [hZn, List.take_take]
    have hmin1 : min (min k (st.textMatch q).length) k =
        min k (st.textMatch q).length := by omega
    rw [hmin1]
    have hlenT : (search_by_content st q (k * 2)).length =
        min (k * 2) (st.textMatch q).length := by
      unfold search_by_content
      exact List.length_take _ _
    have hle : min k (st.textMatch q).length ≤
        (search_by_content st q (k * 2)).length := by omega
    rw [List.take_append_of_le_length hle]
    unfold search_by_content
    rw [List.take_take]
    have hmin2 : min (min k (st.textMatch q).length) (k * 2) =
        min k (st.textMatch q).length := by omega
    rw [hmin2]
    rcases le_total k (st.textMatch q).length with h | h
    · rw [Nat.min_eq_left h]
    · rw [Nat.min_eq_right h, List.take_length, List.take_of_length_le h]

/-- A store whose text search matches only `noteA` while the vector
ranking puts `noteB` first. -/
def cexStore : Store :=
  { embed := fun _ => [1, 0], ranking := fun _ => [noteB, noteA],
    textMatch := fun _ => [noteA], corpus := [noteA, noteB] }

theorem cexStoreWF : StoreWF cexStore :=
  ⟨by decide, fun _ => List.Perm.swap noteA noteB [],
   fun _ n h => by
     rcases List.mem_cons.mp h with rfl | h'
     · exact List.mem_cons_self _ _
     · simp at h',
   fun _ => (by decide : ([1] : List Nat).Nodup)⟩

/-- C2 counterexample: on a well-formed store with two notes where the
lexical search matches only one, hybrid search with weight `0.0` and
`top_k = 2` returns the lexical match *followed by the zero-scored
semantic-only note*, so its order does not equal the pure lexical
order restricted to `top_k`. -/
theorem hybrid_weight_extremes_counterexample :
    StoreWF cexStore ∧
      hybrid_search cexStore ['c'] 0 2 ≠ search_by_content cexStore ['c'] 2 := by
  refine ⟨cexStoreWF, ?_⟩
  intro h
  have h1 : hybrid_search cexStore ['c'] 0 2 = [noteA, noteB] := by
    norm_num [hybrid_search, semantic_search, semantic_search_pgvector,
      search_by_content, cexStore, rankScores, dictKeys, pyDedup, dedupAux,
      setUnion, dictGetD, dictGet?, List.insertionSort, List.orderedInsert,
      scoreDesc, noteA, noteB, List.enum, List.enumFrom]
    norm_num [List.filterMap, List.find?, noteA, noteB]
  have h2 : search_by_content cexStore ['c'] 2 = [noteA] := rfl
  rw [h1, h2] at h
  exact absurd (congrArg List.length h) (by decide)

/-- Witness for C2 (amended) at a concrete well-formed store. -/
theorem hybrid_weight_extremes_amended_witness :
    StoreWF wStore ∧
      (hybrid_search wStore ['c'] 1 1 = semantic_search wStore ['c'] 1 ∧
        (hybrid_search wStore ['c'] 0 1).take
            (min 1 (wStore.textMatch ['c']).length) =
          search_by_content wStore ['c'] 1) :=
  ⟨wStoreWF, hybrid_weight_extremes_amended wStore ['c'] 1 wStoreWF⟩

/-! ### Intent router (`app/agents/strands_router_agent.py`) -/

/-- Python `content or user_input` over an optional string: `None` and
the empty string are falsy. -/
def pyOrStr (content : Option PyStr) (dflt : PyStr) : PyStr :=
  match content with
  | none => dflt
  | some s => if s = [] then dflt else s

/-- The `input_data` dict shapes built by the router. -/
inductive IData where
  | urlData (url : PyStr) (title content : Option PyStr) (original : PyStr)
  | queryData (query : PyStr) (searchType : String) (original : PyStr)
  | contentData (content : PyStr) (original : PyStr)
  | textData (title : Option PyStr) (content : PyStr) (original : PyStr)
deriving DecidableEq, Repr

/-- A routing decision as returned by the fallback router. -/
structure RouteResult where
  agent_type : String
  action : String
  input_data : IData
  confidence : ℚ
  reasoning : String
deriving DecidableEq, Repr

/-- The fixed summarization keyword set of `_fallback_routing`. -/
def summKeywords : List PyStr :=
  ["summarize", "summary", "brief", "overview"].map String.toList

/-- The fixed question keyword set of `_fallback_routing`. -/
def questionKeywords : List PyStr :=
  ["what", "how", "where", "when", "who", "find", "search"].map String.toList

/-- `needle in haystack` for Python strings. -/
def strContains (haystack needle : PyStr) : Bool :=
  haystack.tails.any fun t => needle.isPrefixOf t

/-- Shallow embedding of `_fallback_routing`. -/
def fallback_routing (user_input : PyStr) (title content : Option PyStr)
    (input_type : String) : RouteResult :=
  if input_type = "url" then
    { agent_type := "ingestion", action := "ingest_url",
      input_data := .urlData user_input title content user_input,
      confidence := 95 / 100,
      reasoning := "URL detected - routing to ingestion" }
  else if input_type = "text" then
    let text_lower :=
      match content with
      | some c => if c = [] then user_input.map pyLower else c.map pyLower
      | none => user_input.map pyLower
    if summKeywords.any (fun w => strContains text_lower w) then
      { agent_type := "summarization", action := "summarize_existing",
        input_data := .contentData (pyOrStr content user_input) user_input,
        confidence := 8 / 10,
        reasoning := "Summarization keywords detected" }
    else if questionKeywords.any (fun w => strContains text_lower w) then
      { agent_type := "query", action := "search",
        input_data := .queryData (pyOrStr content user_input) "semantic"
          user_input,
        confidence := 9 / 10,
        reasoning := "Question keywords detected" }
    else
      { agent_type := "ingestion", action := "ingest_text",
        input_data := .textData title (pyOrStr content user_input) user_input,
        confidence := 85 / 100,
        reasoning := "Text content - routing to ingestion" }
  else
    { agent_type := "query", action := "search",
      input_data := .queryData user_input "semantic" user_input,
      confidence := 5 / 10,
      reasoning := "Fallback routing to query" }

/-- The lowered text the keyword checks run on
(`content.lower() if content else user_input.lower()`). -/
def routedTextLower (user_input : PyStr) (content : Option PyStr) : PyStr :=
  match content with
  | some c => if c = [] then user_input.map pyLower else c.map pyLower
  | none => user_input.map pyLower

/-- C6: the fallback router applies its rules in the claimed order with
the claimed outputs — url input yields ingestion/ingest_url at 0.95;
otherwise text containing a summarization keyword yields
summarization/summarize_existing at 0.8; otherwise text containing a
question keyword yields query/search at 0.9; otherwise text yields
ingestion/ingest_text at 0.85; any remaining input_type yields
query/search at 0.5. -/
theorem fallback_routing_rule_order (user_input : PyStr)
    (title content : Option PyStr) (input_type : String) :
    (input_type = "url" →
      (fallback_routing user_input title content input_type).agent_type =
          "ingestion" ∧
        (fallback_routing user_input title content input_type).action =
          "ingest_url" ∧
        (fallback_routing user_input title content input_type).confidence =
          95 / 100) ∧
    (input_type = "text" →
      summKeywords.any (fun w =>
        strContains (routedTextLower user_input content) w) = true →
      (fallback_routing user_input title content input_type).agent_type =
          "summarization" ∧
        (fallback_routing user_input title content input_type).action =
          "summarize_existing" ∧
        (fallback_routing user_input title content input_type).confidence =
          8 / 10) ∧
    (input_type = "text" →
      summKeywords.any (fun w =>
        strContains (routedTextLower user_input content) w) = false →
      questionKeywords.any (fun w =>
        strContains (routedTextLower user_input content) w) = true →
      (fallback_routing user_input title content input_type).agent_type =
          "query" ∧
        (fallback_routing user_input title content input_type).action =
          "search" ∧
        (fallback_routing user_input title content input_type).confidence =
          9 / 10) ∧
    (input_type = "text" →
      summKeywords.any (fun w =>
        strContains (routedTextLower user_input content) w) = false →
      questionKeywords.any (fun w =>
        strContains (routedTextLower user_input content) w) = false →
      (fallback_routing user_input title content input_type).agent_type =
          "ingestion" ∧
        (fallback_routing user_input title content input_type).action =
          "ingest_text" ∧
        (fallback_routing user_input title content input_type).confidence =
          85 / 100) ∧
    (input_type ≠ "url" → input_type ≠ "text" →
      (fallback_routing user_input title content input_type).agent_type =
          "query" ∧
        (fallback_routing user_input title content input_type).action =
          "search" ∧
        (fallback_routing user_input title content input_type).confidence =
          5 / 10) := by
  refine ⟨?_, ?_, ?_, ?_, ?_⟩
  · intro h
    subst h
    simp [fallback_routing]
  · intro h hs
    subst h
    simp only [routedTextLower] at hs
    simp [fallback_routing, hs]
  · intro h hs hq
    subst h
    simp only [routedTextLower] at hs hq
    simp [fallback_routing, hs, hq]
  · intro h hs hq
    subst h
    simp only [routedTextLower] at hs hq
    simp [fallback_routing, hs, hq]
  · intro h1 h2
    simp only [fallback_routing]
    rw [if_neg h1, if_neg h2]
    exact ⟨rfl, rfl, rfl⟩

/-- Witness for C6: the spec's example — classifier failure on
`"https://x.com"` (a url input) routes to ingestion/ingest_url with
confidence 0.95; and a text containing "summarize" routes to
summarization. -/
theorem fallback_routing_rule_order_witness :
    ((fallback_routing ("https://x.com".toList) none none "url").agent_type =
        "ingestion" ∧
      (fallback_routing ("https://x.com".toList) none none "url").action =
        "ingest_url" ∧
      (fallback_routing ("https://x.com".toList) none none "url").confidence =
        95 / 100) ∧
    (fallback_routing ("summarize my notes".toList) none none
        "text").agent_type = "summarization" := by
  constructor
  · exact (fallback_routing_rule_order ("https://x.com".toList) none none
      "url").1 rfl
  · exact ((fallback_routing_rule_order ("summarize my notes".toList) none
      none "text").2.1 rfl (by decide)).1

/-- A Python scalar as far as `validate_routing` can observe it:
an int, a float, or something that is neither. -/
inductive PyScalar where
  | pint (i : Int)
  | pfloat (q : ℚ)
  | pother
deriving DecidableEq, Repr

/-- A routing result dict as consumed by `validate_routing`: each
required key may be absent. -/
structure RoutingDict where
  agent_type : Option String
  action : Option String
  input_data : Option IData
  confidence : Option PyScalar
deriving DecidableEq, Repr

/-- Shallow embedding of `validate_routing`: all four required fields
present, known agent type, numeric confidence within `[0, 1]`. -/
def validate_routing (r : RoutingDict) : Bool :=
  if !(r.agent_type.isSome && r.action.isSome && r.input_data.isSome &&
      r.confidence.isSome) then
    false
  else if !(match r.agent_type with
      | some a => ["ingestion", "query", "summarization"].contains a
      | none => false) then
    false
  else if !(match r.confidence with
      | some (.pint i) => decide (0 ≤ i ∧ i ≤ 1)
      | some (.pfloat q) => decide (0 ≤ q ∧ q ≤ 1)
      | _ => false) then
    false
  else true

/-- The validity predicate exactly as claim C7 states it. -/
def specValidRouting (r : RoutingDict) : Prop :=
  (r.agent_type.isSome ∧ r.action.isSome ∧ r.input_data.isSome ∧
    r.confidence.isSome) ∧
  (∃ a, r.agent_type = some a ∧
    (a = "ingestion" ∨ a = "query" ∨ a = "summarization")) ∧
  ((∃ i : Int, r.confidence = some (.pint i) ∧ 0 ≤ i ∧ i ≤ 1) ∨
   (∃ q : ℚ, r.confidence = some (.pfloat q) ∧ 0 ≤ q ∧ q ≤ 1))

/-- C7: `validate_routing` accepts a decision iff it has all four
required fields, a known agent type and a numeric confidence in
`[0, 1]`; in particular it rejects confidence `1.5` and rejects a
missing `input_data`. -/
theorem validate_routing_characterisation :
    (∀ r : RoutingDict, validate_routing r = true ↔ specValidRouting r) ∧
    validate_routing
      { agent_type := some "query", action := some "search",
        input_data := some (.queryData [] "semantic" []),
        confidence := some (.pfloat (15 / 10)) } = false ∧
    validate_routing
      { agent_type := some "query", action := some "search",
        input_data := none,
        confidence := some (.pfloat (5 / 10)) } = false := by
  refine ⟨?_, ?_, ?_⟩
  · intro r
    obtain ⟨oa, ob, oc, od⟩ := r
    constructor
    · intro h
      unfold validate_routing at h
      by_cases h1 : (oa.isSome && ob.isSome && oc.isSome && od.isSome) = true
      · rw [if_neg (by rw [h1]; simp)] at h
        cases oa with
        | none => simp at h1
        | some a =>
          by_cases h2 : (["ingestion", "query", "summarization"].contains a)
              = true
          · rw [if_neg (by simp only [h2]; simp)] at h
            simp only [Bool.and_eq_true] at h1
            refine ⟨⟨rfl, h1.1.1.2, h1.1.2, h1.2⟩,
              ⟨a, rfl, by simpa using h2⟩, ?_⟩
            cases od with
            | none => simp at h1
            | some c =>
              cases c with
              | pint i =>
                by_cases h3 : (0 ≤ i ∧ i ≤ 1)
                · exact Or.inl ⟨i, rfl, h3.1, h3.2⟩
                · rw [if_pos (by simp [h3])] at h
                  exact absurd h (by simp)
              | pfloat q =>
                by_cases h3 : (0 ≤ q ∧ q ≤ 1)
                · exact Or.inr ⟨q, rfl, h3.1, h3.2⟩
                · rw [if_pos (by simp [h3])] at h
                  exact absurd h (by simp)
              | pother =>
                rw [if_pos (by simp)] at h
                exact absurd h (by simp)
          · simp only [List.contains_eq_any_beq, List.any_eq_true,
              Bool.not_eq_true] at h2
            rw [if_pos (by simp [List.contains_eq_any_beq]; simpa using h2)]
              at h
            exact absurd h (by simp)
      · rw [if_pos (by simp only [Bool.not_eq_true] at h1; rw [h1]; simp)]
          at h
        exact absurd h (by simp)
    · rintro ⟨⟨ha, hb, hc, hd⟩, ⟨a, haeq, hav⟩, hconf⟩
      subst haeq
      unfold validate_routing
      have h1 : ((some a : Option String).isSome && ob.isSome && oc.isSome &&
          od.isSome) = true := by simp [hb, hc, hd]
      rw [if_neg (by rw [h1]; simp)]
      have h2 : (["ingestion", "query", "summarization"].contains a)
          = true := by
        rcases hav with rfl | rfl | rfl <;> simp
      rw [if_neg (by simp only [h2]; simp)]
      rcases hconf with ⟨i, heq, hi0, hi1⟩ | ⟨q, heq, hq0, hq1⟩ <;>
        subst heq
      · rw [if_neg (by simp [hi0, hi1])]
      · rw [if_neg (by simp [hq0, hq1])]
  · norm_num [validate_routing]
  · rfl

/-! ### Ingestion pipeline fallback
(`app/agents/strands_ingestion_agent.py`,
`_process_content_with_strands`) -/

/-- The structured output of the external content analyzer (the
`ContentAnalysis` pydantic model); the analyzer receives at most the
first 4000 characters of the content. -/
structure ContentAnalysis where
  title : PyStr
  summary : PyStr
  tags : List TagVal
  content_type : String
  key_insights : List PyStr
deriving DecidableEq, Repr

/-- The analysis phase of `_process_content_with_strands`: use the
analyzer's output, or on any failure (`none`) fall back to
`title or content[:80]`, `content[:200]`, no tags, type `"text"`, no
insights. -/
structure AnalysisOutcome where
  final_title : PyStr
  summary : PyStr
  tags : List TagVal
  content_type : String
  key_insights : List PyStr
deriving DecidableEq, Repr

def analysisPhase (analysis : Option ContentAnalysis)
    (title : Option PyStr) (content : PyStr) : AnalysisOutcome :=
  match analysis with
  | some a => ⟨a.title, a.summary, a.tags, a.content_type, a.key_insights⟩
  | none => ⟨pyOrStr title (content.take 80), content.take 200, [], "text", []⟩

/-- The field values handed to `add_note` for persistence. -/
structure NoteDraft where
  title : PyStr
  content : PyStr
  summary : PyStr
  tags : List PyStr
  embedding : List ℚ
deriving DecidableEq, Repr

/-- The note `_process_content_with_strands` stores: analysis (or its
fallback), tag normalization (`normalize_tags(tags) if tags else []`),
and the embedding of the full content. -/
def process_content_stored_note (st : Store)
    (analysis : Option ContentAnalysis) (title : Option PyStr)
    (content : PyStr) : NoteDraft :=
  let a := analysisPhase analysis title content
  let normalized_tags :=
    if a.tags = [] then [] else normalize_tags (.list a.tags)
  { title := a.final_title, content := content, summary := a.summary,
    tags := normalized_tags, embedding := st.embed content }

/-- C8: when the content-analysis service fails, the stored note's
title is the given title or, if that is missing or empty, the first 80
characters of the content; its summary is the first 200 characters of
the content; and its tags are the empty list. -/
theorem ingestion_fallback_note_fields (st : Store) (title : Option PyStr)
    (content : PyStr) :
    ((title = none ∨ title = some []) →
      (process_content_stored_note st none title content).title =
        content.take 80) ∧
    (∀ t, title = some t → t ≠ [] →
      (process_content_stored_note st none title content).title = t) ∧
    (process_content_stored_note st none title content).summary =
      content.take 200 ∧
    (process_content_stored_note st none title content).tags = [] := by
  refine ⟨?_, ?_, rfl, rfl⟩
  · rintro (rfl | rfl)
    · rfl
    · rfl
  · intro t ht hne
    subst ht
    simp [process_content_stored_note, analysisPhase, pyOrStr, hne]

/-- Witness for C8: the spec's scenario — ingest the text
`"Short note about cats and dogs."` with a failing analyzer and no
given title. -/
theorem ingestion_fallback_note_fields_witness :
    (process_content_stored_note wStore none none
        ("Short note about cats and dogs.".toList)).title =
      ("Short note about cats and dogs.".toList).take 80 ∧
    (process_content_stored_note wStore none none
        ("Short note about cats and dogs.".toList)).summary =
      ("Short note about cats and dogs.".toList).take 200 ∧
    (process_content_stored_note wStore none none
        ("Short note about cats and dogs.".toList)).tags = [] :=
  ⟨(ingestion_fallback_note_fields wStore none
      ("Short note about cats and dogs.".toList)).1 (Or.inl rfl),
   (ingestion_fallback_note_fields wStore none
      ("Short note about cats and dogs.".toList)).2.2.1,
   (ingestion_fallback_note_fields wStore none
      ("Short note about cats and dogs.".toList)).2.2.2⟩

/-! ### Query agent (`app/agents/query_agent.py`) -/

/-- The uniform result envelope `{success, result, error, message}`. -/
structure Env (α : Type) where
  success : Bool
  result : Option α
  error : Option String
  message : Option String
deriving DecidableEq, Repr

/-- `_calculate_similarity_score`: `compute_similarity` with any
exception converted to `0.0` (here `(0, 1)` in the exact
representation). -/
def calc_similarity_score (e1 e2 : List ℚ) : ℚ × ℚ :=
  match compute_similarity e1 e2 with
  | .ok v => v
  | .error _ => (0, 1)

/-- A formatted similar-note entry of `_handle_find_similar`. -/
structure SimilarEntry where
  id : Nat
  title : PyStr
  summary : PyStr
  tags : List PyStr
  created_at : Nat
  similarity_score : ℚ × ℚ
deriving DecidableEq, Repr

/-- The success payload of `_handle_find_similar`. -/
structure SimilarPayload where
  original_id : Nat
  original_title : PyStr
  original_summary : PyStr
  similar_notes : List SimilarEntry
  total_similar : Nat
deriving DecidableEq, Repr

/-- The not-found message of `_handle_find_similar`. -/
def notFoundMsg (note_id : Nat) : String :=
  "Note with ID " ++ toString note_id ++ " not found"

/-- The missing-field message of `_handle_find_similar` (also produced
by the Python falsy check when `note_id` is `0`). -/
def noteIdRequiredMsg : String :=
  "Note ID is required for finding similar notes"

/-- Shallow embedding of `_handle_find_similar`. -/
def handle_find_similar (st : Store) (note_id : Option Nat)
    (top_k : Nat) : Env SimilarPayload :=
  match note_id with
  | none => ⟨false, none, some noteIdRequiredMsg, none⟩
  | some nid =>
    if nid = 0 then ⟨false, none, some noteIdRequiredMsg, none⟩
    else
      let similar_notes := find_similar_notes st nid top_k
      match get_note_by_id st nid with
      | none => ⟨false, none, some (notFoundMsg nid), none⟩
      | some original_note =>
        let formatted := similar_notes.map fun n =>
          SimilarEntry.mk n.id n.title n.summary n.tags n.created_at
            (calc_similarity_score original_note.embedding n.embedding)
        ⟨true,
          some ⟨original_note.id, original_note.title,
            original_note.summary, formatted, formatted.length⟩,
          none,
          some ("Found " ++ toString formatted.length ++ " similar notes")⟩

/-- A store with no notes at all. -/
def emptyStore : Store :=
  { embed := fun _ => [], ranking := fun _ => [], textMatch := fun _ => [],
    corpus := [] }

/-- C9 counterexample: the integer `note_id = 0` is absent from every
store, yet the handler's Python falsy check returns the
missing-field message `"Note ID is required for finding similar
notes"` rather than a not-found-style message, so the claim fails at
`note_id = 0`. -/
theorem find_similar_missing_counterexample :
    (∀ n ∈ emptyStore.corpus, n.id ≠ 0) ∧
    (handle_find_similar emptyStore (some 0) 3).error =
      some noteIdRequiredMsg ∧
    noteIdRequiredMsg ≠ notFoundMsg 0 := by
  refine ⟨?_, rfl, ?_⟩
  · intro n hn
    simp [emptyStore] at hn
  · decide

/-- C9 (amended: for every *nonzero* note_id not present in the store):
the retrieval engine's `find_similar_notes` returns `[]` without error
for every missing id (including `0`), and the query handler returns a
`success := false` envelope — with the not-found message for nonzero
ids, and with the missing-field message for id `0`, which the Python
truthiness test conflates with an absent id; no exception is thrown in
either case. -/
theorem find_similar_missing_amended (st : Store) (note_id top_k : Nat)
    (hmiss : ∀ n ∈ st.corpus, n.id ≠ note_id) :
    find_similar_notes st note_id top_k = [] ∧
    (note_id ≠ 0 →
      (handle_find_similar st (some note_id) top_k).success = false ∧
      (handle_find_similar st (some note_id) top_k).error =
        some (notFoundMsg note_id)) ∧
    (note_id = 0 →
      (handle_find_similar st (some note_id) top_k).success = false ∧
      (handle_find_similar st (some note_id) top_k).error =
        some noteIdRequiredMsg) := by
  have hget : get_note_by_id st note_id = none := by
    unfold get_note_by_id
    rw [List.find?_eq_none]
    intro n hn
    simp only [decide_eq_true_eq]
    exact hmiss n hn
  refine ⟨?_, ?_, ?_⟩
  · unfold find_similar_notes
    rw [hget]
  · intro hnz
    simp only [handle_find_similar]
    rw [if_neg hnz, hget]
    exact ⟨rfl, rfl⟩
  · intro hz
    subst hz
    exact ⟨rfl, rfl⟩

/-- Witness for C9 (amended) at the empty store and `note_id = 7`. -/
theorem find_similar_missing_amended_witness :
    find_similar_notes emptyStore 7 3 = [] ∧
      (handle_find_similar emptyStore (some 7) 3).success = false ∧
      (handle_find_similar emptyStore (some 7) 3).error =
        some (notFoundMsg 7) := by
  have h := find_similar_missing_amended emptyStore 7 3
    (by intro n hn; simp [emptyStore] at hn)
  exact ⟨h.1, (h.2.1 (by decide)).1, (h.2.1 (by decide)).2⟩

/-- A formatted search-result entry of `_handle_search`:
`content_preview` truncates at 200 characters with an ellipsis. -/
structure SearchEntry where
  id : Nat
  title : PyStr
  summary : PyStr
  tags : List PyStr
  created_at : Nat
  content_preview : PyStr
deriving DecidableEq, Repr

/-- The success payload of `_handle_search`; `search_type` is echoed
both in the payload and its metadata. -/
structure SearchPayload where
  query : PyStr
  search_type : String
  results : List SearchEntry
  total_results : Nat
  meta_query_length : Nat
  meta_search_type : String
deriving DecidableEq, Repr

def format_search_note (n : Note) : SearchEntry :=
  ⟨n.id, n.title, n.summary, n.tags, n.created_at,
    if 200 < n.content.length then n.content.take 200 ++ "...".toList
    else n.content⟩

/-- Shallow embedding of `_handle_search`: empty query is rejected;
the `search_type` dispatch falls back to semantic search for unknown
types. -/
def handle_search (st : Store) (query : Option PyStr)
    (search_type : String) (top_k : Nat) : Env SearchPayload :=
  let q := pyStrip (query.getD [])
  if q = [] then
    ⟨false, none, some "Search query is required", none⟩
  else
    let results :=
      if search_type = "semantic" then semantic_search st q top_k
      else if search_type = "text" then search_by_content st q top_k
      else if search_type = "hybrid" then hybrid_search st q (7 / 10) top_k
      else if search_type = "tags" then
        search_by_tags st ((q.splitOn ',').map pyStrip) top_k
      else semantic_search st q top_k
    let formatted := results.map format_search_note
    ⟨true,
      some ⟨q, search_type, formatted, formatted.length, q.length,
        search_type⟩,
      none,
      some ("Found " ++ toString formatted.length ++ " results for \"" ++
        String.mk q ++ "\"")⟩

/-- C10 counterexample: the handler's response for an unknown
`search_type` is not identical to the `"semantic"` response — the
envelope echoes the unknown string in the payload's `search_type`
fields. -/
theorem unknown_search_type_counterexample :
    handle_search wStore (some ['c']) "fuzzy" 5 ≠
      handle_search wStore (some ['c']) "semantic" 5 := by
  intro h
  have h1 : (handle_search wStore (some ['c']) "fuzzy" 5).result.map
      SearchPayload.search_type = some "fuzzy" := rfl
  rw [h] at h1
  have h2 : (handle_search wStore (some ['c']) "semantic" 5).result.map
      SearchPayload.search_type = some "semantic" := rfl
  rw [h1] at h2
  simp at h2

/-- C10 (amended): for every non-empty query and unknown search_type,
the handler silently performs a semantic search — success flag, error,
message and result list all equal the `"semantic"` response, and only
the echoed `search_type` strings differ — while the standalone
`search_notes` utility raises `ValueError` for the same unknown
search_type. -/
theorem unknown_search_type_amended (st : Store) (q : PyStr)
    (styp : String) (k : Nat) (hq : pyStrip q ≠ [])
    (h1 : styp ≠ "semantic") (h2 : styp ≠ "text") (h3 : styp ≠ "hybrid")
    (h4 : styp ≠ "tags") :
    ((handle_search st (some q) styp k).success =
        (handle_search st (some q) "semantic" k).success ∧
      (handle_search st (some q) styp k).error =
        (handle_search st (some q) "semantic" k).error ∧
      (handle_search st (some q) styp k).message =
        (handle_search st (some q) "semantic" k).message ∧
      (handle_search st (some q) styp k).result.map SearchPayload.results =
        (handle_search st (some q) "semantic" k).result.map
          SearchPayload.results ∧
      (handle_search st (some q) styp k).result.map
          SearchPayload.search_type = some styp) ∧
    search_notes st q styp k = .error ("Unknown search type: " ++ styp) := by
  constructor
  · simp only [handle_search, Option.getD]
    rw [if_neg hq, if_neg hq, if_neg h1, if_neg h2, if_neg h3, if_neg h4]
    exact ⟨rfl, rfl, rfl, rfl, rfl⟩
  · unfold search_notes
    rw [if_neg h1, if_neg h2, if_neg h3, if_neg h4]

/-- Witness for C10 (amended) at a concrete store with search_type
`"fuzzy"`. -/
theorem unknown_search_type_amended_witness :
    ((handle_search wStore (some ['c']) "fuzzy" 5).success =
        (handle_search wStore (some ['c']) "semantic" 5).success ∧
      (handle_search wStore (some ['c']) "fuzzy" 5).error =
        (handle_search wStore (some ['c']) "semantic" 5).error ∧
      (handle_search wStore (some ['c']) "fuzzy" 5).message =
        (handle_search wStore (some ['c']) "semantic" 5).message ∧
      (handle_search wStore (some ['c']) "fuzzy" 5).result.map
          SearchPayload.results =
        (handle_search wStore (some ['c']) "semantic" 5).result.map
          SearchPayload.results ∧
      (handle_search wStore (some ['c']) "fuzzy" 5).result.map
          SearchPayload.search_type = some "fuzzy") ∧
    search_notes wStore ['c'] "fuzzy" 5 =
      .error ("Unknown search type: " ++ "fuzzy") :=
  unknown_search_type_amended wStore ['c'] "fuzzy" 5 (by decide)
    (by decide) (by decide) (by decide) (by decide)
